import Mathlib

/-!
# Verification of the feeder-vision core (Rust crate `feeder_core`)

This file gives a shallow embedding, in Lean 4, of the functions of
`crates/feeder_core/src/lib.rs` that the specification's claims are about:

* the 64-bit perceptual hash `dhash_gray` (nested bit-setting loops);
* `hamming`, `bitwise_majority`, `farthest_from`, `k2_hamming_centroids`
  and `cluster_stats` (the binary cluster model);
* `BgDiffDetector` (`default`, `prepare`, `detect_present`);
* `HeuristicDetector` (`default`, `detect_present`);
* `apply_presence`, `scan_folder_with`, `is_supported_image`, `export_csv`.

Modelling conventions:

* `u64` values are naturals; all values produced by the embedded code are
  `< 2^64`, and bit counting is over the 64 bit positions, matching
  `u64::count_ones`.
* `f32`/`f64` statistics are modelled over `ℚ`; the square roots taken by
  `f32::sqrt`/`f64::sqrt` are passed in as parameters (`sq`) or taken in `ℝ`
  (`Real.sqrt`), so theorems quantify over every possible rounding of the
  library square root where the exact value is irrelevant.
* image decoding and the `image` crate's resampling (`resize`, `thumbnail`)
  are external library calls; they are modelled as parameters (`env`,
  `resize9x8`), with decode failure as `Option.none`.
* fallible Rust functions returning `anyhow::Result` are modelled with
  `Except String`.
-/

namespace Feeder

/-- Number of set bits among the 64 bit positions of `x`: models
`u64::count_ones` for values below `2 ^ 64`. -/
def popcount64 (x : ℕ) : ℕ :=
  ((List.range 64).filter (fun i => x.testBit i)).length

/-- `fn hamming(a: u64, b: u64) -> u32 { (a ^ b).count_ones() }`. -/
def hamming (a b : ℕ) : ℕ := popcount64 (a ^^^ b)

/-- Number of values in `vals` with bit `i` set (the per-bit counter built by
the accumulation loop in `bitwise_majority`). -/
def cnt1 (vals : List ℕ) (i : ℕ) : ℕ := vals.countP (fun v => v.testBit i)

/-- `fn bitwise_majority(vals: &[u64]) -> u64`: bit `i` of the result is set
iff `count * 2 >= n` where `count` is the number of values with bit `i` set
and `n = vals.len()`. -/
def bitwise_majority (vals : List ℕ) : ℕ :=
  (List.range 64).foldl
    (fun out i =>
      if vals.length ≤ 2 * cnt1 vals i then out ||| (1 <<< i) else out) 0

/-- `fn farthest_from(center: u64, vals: &[u64]) -> Option<u64>`:
`vals.iter().copied().max_by_key(|&v| hamming(center, v))`.  Rust's
`max_by_key` returns the *last* maximal element, so the fold replaces the
current best on ties. -/
def farthest_from (center : ℕ) (vals : List ℕ) : Option ℕ :=
  vals.foldl
    (fun acc v =>
      match acc with
      | none => some v
      | some b => if hamming center b ≤ hamming center v then some v else some b)
    none

/-- One iteration of the loop in `k2_hamming_centroids`: compute the
assignment vector from the current centroids, split the values into two
clusters, and recompute each non-empty cluster's centroid by bitwise
majority (an empty cluster's centroid is left unchanged).  The assignment
returned is the one computed *before* the centroid update, as in the Rust
loop. -/
def k2_round (vals : List ℕ) (s : ℕ × ℕ × List ℕ) : ℕ × ℕ × List ℕ :=
  let c0 := s.1
  let c1 := s.2.1
  let assign := vals.map (fun v => if hamming v c0 ≤ hamming v c1 then 0 else 1)
  let cluster0 := vals.filter (fun v => hamming v c0 ≤ hamming v c1)
  let cluster1 := vals.filter (fun v => ¬ (hamming v c0 ≤ hamming v c1))
  let c0' := if cluster0.isEmpty then c0 else bitwise_majority cluster0
  let c1' := if cluster1.isEmpty then c1 else bitwise_majority cluster1
  (c0', c1', assign)

/-- `fn k2_hamming_centroids(vals: &[u64], c0: u64, c1: u64, iters: usize)
-> (u64, u64, Vec<u8>)`: the assignment vector starts as `vec![0; n]` and the
round body runs `iters` times. -/
def k2_hamming_centroids (vals : List ℕ) (c0 c1 : ℕ) (iters : ℕ) :
    ℕ × ℕ × List ℕ :=
  (k2_round vals)^[iters] (c0, c1, List.replicate vals.length 0)

/-- `fn cluster_stats(vals: &[u64], c: u64, assign: &[u8], which: u8)
-> (f32, f32)`.  The float arithmetic is over `ℚ` and the `f32::sqrt` at the
end is the parameter `sq`. -/
def cluster_stats (sq : ℚ → ℚ) (vals : List ℕ) (c : ℕ) (assign : List ℕ)
    (which : ℕ) : ℚ × ℚ :=
  let ds : List ℚ :=
    ((vals.zip assign).filter (fun p => p.2 = which)).map
      (fun p => (hamming c p.1 : ℚ))
  let cnt : ℚ := ds.length
  if cnt < 1 then (0, 1)
  else
    let mean := ds.sum / cnt
    let var := (ds.map (fun d => d * d)).sum / cnt - mean * mean
    (mean, sq (max var 0))

/-- The 8x9 grayscale thumbnail produced by
`image::imageops::resize(gray, 9, 8, FilterType::Nearest)`, as a pixel
function `(x, y) ↦ intensity`; only `x < 9`, `y < 8` are read. -/
abbrev SmallImage : Type := ℕ → ℕ → ℕ

/-- The nested loops of `dhash_gray`: for `y` in `0..8`, `x` in `0..8`, set
bit `idx = 8*y + x` iff the pixel at `(x, y)` strictly exceeds the pixel at
`(x+1, y)`. -/
def dhash_bits (small : SmallImage) : ℕ :=
  (List.range 8).foldl
    (fun bits y =>
      (List.range 8).foldl
        (fun bits x =>
          if small (x + 1) y < small x y then bits ||| (1 <<< (8 * y + x))
          else bits)
        bits)
    0

/-- A decoded grayscale image (`image::GrayImage`), as a pixel function. -/
abbrev GrayImage : Type := ℕ → ℕ → ℕ

/-- `fn dhash_gray(gray: &GrayImage) -> u64`, with the `image` crate's
nearest-neighbor 9x8 resize supplied as the abstract parameter
`resize9x8`. -/
def dhash_gray (resize9x8 : GrayImage → SmallImage) (gray : GrayImage) : ℕ :=
  dhash_bits (resize9x8 gray)

/-- The image-decoding environment: `image::open(p)?.to_luma8()`, with
`none` for a decode failure. -/
abbrev DecodeEnv : Type := String → Option GrayImage

/-- `fn dhash_path(p: &Path) -> Result<u64>`. -/
def dhash_path (resize9x8 : GrayImage → SmallImage) (env : DecodeEnv)
    (p : String) : Except String ℕ :=
  match env p with
  | none => .error ("image decode failed: " ++ p)
  | some gray => .ok (dhash_gray resize9x8 gray)

/-- `enum Decision { Unknown, Label(String) }`. -/
inductive Decision where
  | Unknown : Decision
  | Label : String → Decision
deriving DecidableEq

/-- `struct Classification { decision: Decision, confidence: f32 }`. -/
structure Classification where
  decision : Decision
  confidence : ℚ
deriving DecidableEq

/-- `struct ImageInfo { file: PathBuf, present: bool,
classification: Option<Classification> }`. -/
structure ImageInfo where
  file : String
  present : Bool
  classification : Option Classification
deriving DecidableEq

/-- `struct BgDiffDetector`: the threshold factor `k` plus the learned
centroids and per-cluster statistics set by `prepare`. -/
structure BgDiffDetector where
  k : ℚ
  c0 : ℕ
  c1 : ℕ
  mean0 : ℚ
  std0 : ℚ
  mean1 : ℚ
  std1 : ℚ
deriving DecidableEq

/-- `impl Default for BgDiffDetector`: `k = 2.5`, `c0 = 0`, `c1 = !0u64`,
means `0.0`, stds `1.0`. -/
def BgDiffDetector.default : BgDiffDetector :=
  { k := 5 / 2, c0 := 0, c1 := 2 ^ 64 - 1
    mean0 := 0, std0 := 1, mean1 := 0, std1 := 1 }

/-- `BgDiffDetector::prepare`.  The rayon `par_iter` hashing is modelled by
`mapM` (hashing is pure, so the fan-out/fan-in produces the in-order list);
a failed hash makes the whole call fail via `collect::<Result<_>>()?`.
`1e-3` is `1/1000`. -/
def BgDiffDetector.prepare (sq : ℚ → ℚ) (resize9x8 : GrayImage → SmallImage)
    (env : DecodeEnv) (d : BgDiffDetector) (paths : List String) :
    Except String BgDiffDetector :=
  if paths.isEmpty then .ok d
  else
    match paths.mapM (dhash_path resize9x8 env) with
    | .error e => .error e
    | .ok hashes =>
      let c0 := bitwise_majority hashes
      let c1 := (farthest_from c0 hashes).getD (c0 ^^^ (2 ^ 64 - 1))
      let r := k2_hamming_centroids hashes c0 c1 5
      let s0 := cluster_stats sq hashes r.1 r.2.2 0
      let s1 := cluster_stats sq hashes r.2.1 r.2.2 1
      .ok { d with
            c0 := r.1, c1 := r.2.1
            mean0 := s0.1
            std0 := if s0.2 ≤ 1 / 1000 then 1 else s0.2
            mean1 := s1.1
            std1 := if s1.2 ≤ 1 / 1000 then 1 else s1.2 }

/-- The decision step of `BgDiffDetector::detect_present` on an already
computed hash `h`: compare the distance to the nearer centroid (ties to
`c0`) against `mean + k * std`. -/
def BgDiffDetector.decide (d : BgDiffDetector) (h : ℕ) : Bool :=
  let d0 : ℚ := hamming d.c0 h
  let d1 : ℚ := hamming d.c1 h
  if d0 ≤ d1 then (if d.mean0 + d.k * d.std0 < d0 then true else false)
  else if d.mean1 + d.k * d.std1 < d1 then true else false

/-- `BgDiffDetector::detect_present`. -/
def BgDiffDetector.detect_present (resize9x8 : GrayImage → SmallImage)
    (env : DecodeEnv) (d : BgDiffDetector) (p : String) :
    Except String Bool :=
  match dhash_path resize9x8 env p with
  | .error e => .error e
  | .ok h => .ok (d.decide h)

/-- `struct HeuristicDetector { stddev_threshold: f32, sample_size: u32 }`. -/
structure HeuristicDetector where
  stddev_threshold : ℚ
  sample_size : ℕ
deriving DecidableEq

/-- `impl Default for HeuristicDetector`: threshold `10.0`, sample size
`64`. -/
def HeuristicDetector.default : HeuristicDetector :=
  { stddev_threshold := 10, sample_size := 64 }

/-- The grayscale variance computed by `HeuristicDetector::detect_present`
over the pixels of the (down-sampled) image:
`sum2 / n - (sum / n)^2`. -/
def grayVariance (pixels : List ℕ) : ℚ :=
  let n : ℚ := pixels.length
  let sum : ℚ := (pixels.map (Nat.cast : ℕ → ℚ)).sum
  let sum2 : ℚ := (pixels.map (fun p => (Nat.cast p : ℚ) * Nat.cast p)).sum
  let mean := sum / n
  sum2 / n - mean * mean

/-- The predicate decided by `HeuristicDetector::detect_present`, given the
pixel list of the image *after* the `thumbnail` down-sampling step:
`var.max(0.0).sqrt() >= self.stddev_threshold`.  The `f64` square root is
`Real.sqrt`. -/
def HeuristicDetector.presentOn (det : HeuristicDetector)
    (pixels : List ℕ) : Prop :=
  (det.stddev_threshold : ℝ) ≤ Real.sqrt ((max (grayVariance pixels) 0 : ℚ) : ℝ)

/-- The presence-detector capability (`trait PresenceDetector`), with the
mutable `self` threaded explicitly: `prepare` returns the updated detector
state. -/
structure Detector (σ : Type) where
  prepare : σ → List String → Except String σ
  detect_present : σ → String → Except String Bool

/-- `fn apply_presence(rows, detector) -> Result<()>`: `prepare` runs on all
file paths and its error propagates (`detector.prepare(&files)?`); then each
record's `present` is set from `detect_present`, with a per-record error
logged and resolved to `present = false`.  The in-place mutation is modelled
by returning the new detector state and record list. -/
def apply_presence {σ : Type} (d : Detector σ) (s : σ) (rows : List ImageInfo) :
    Except String (σ × List ImageInfo) :=
  match d.prepare s (rows.map ImageInfo.file) with
  | .error e => .error e
  | .ok s' =>
    .ok (s', rows.map fun info =>
      match d.detect_present s' info.file with
      | .ok p => { info with present := p }
      | .error _ => { info with present := false })

/-- The record list as left in memory by `apply_presence`: on success the
updated records, on a `prepare` failure the untouched input (the Rust
function returns `Err` before any row is written). -/
def apply_presence_rows {σ : Type} (d : Detector σ) (s : σ)
    (rows : List ImageInfo) : List ImageInfo :=
  match apply_presence d s rows with
  | .ok r => r.2
  | .error _ => rows

/-- The `Detector` record for `BgDiffDetector` (its `impl PresenceDetector`
block). -/
def bgDiffDetector (sq : ℚ → ℚ) (resize9x8 : GrayImage → SmallImage)
    (env : DecodeEnv) : Detector BgDiffDetector :=
  { prepare := fun d paths => BgDiffDetector.prepare sq resize9x8 env d paths
    detect_present := fun d p => BgDiffDetector.detect_present resize9x8 env d p }

mutual
/-- A file-system subtree, for modelling `walkdir::WalkDir`: a file or a
directory with its entries in the order the OS yields them.  (`FsEntries`
is a specialized entry list so that the walk is structurally recursive.) -/
inductive FsTree where
  | file : String → FsTree
  | dir : String → FsEntries → FsTree
/-- A directory's ordered entry list. -/
inductive FsEntries where
  | nil : FsEntries
  | cons : FsTree → FsEntries → FsEntries
end

/-- The entries of a directory as an ordinary list. -/
def FsEntries.toList : FsEntries → List FsTree
  | .nil => []
  | .cons t ts => t :: ts.toList

mutual
/-- All files below an entry, as component paths, in depth-first walk order
(the unlimited-depth `WalkDir` restricted to `path.is_file()` entries). -/
def FsTree.allFiles : FsTree → List (List String)
  | .file n => [[n]]
  | .dir n es => (allFilesEntries es).map (n :: ·)
/-- All files below a directory's entry list. -/
def allFilesEntries : FsEntries → List (List String)
  | .nil => []
  | .cons t ts => t.allFiles ++ allFilesEntries ts
end

/-- The files yielded for a directory's entry list by
`WalkDir::new(root).max_depth(1)`: only the direct children that are files
(the root itself is a directory and is skipped by `is_file`). -/
def topFiles (entries : FsEntries) : List (List String) :=
  entries.toList.filterMap fun e =>
    match e with
    | .file n => some [n]
    | .dir _ _ => none

/-- The files yielded for a directory's entry list by the unlimited-depth
walk. -/
def deepFiles (entries : FsEntries) : List (List String) :=
  allFilesEntries entries

/-- The scan root as seen by `scan_folder_with`: missing, a non-directory,
or a directory with its entries. -/
inductive ScanRoot where
  | missing : ScanRoot
  | notDir : ScanRoot
  | isDir : FsEntries → ScanRoot

/-- The characters after the last `.` of a character list, or `none` when
no `.` occurs. -/
def afterLastDot : List Char → Option (List Char)
  | [] => none
  | c :: cs =>
    match afterLastDot cs with
    | some e => some e
    | none => if c = '.' then some cs else none

/-- Rust `Path::extension` on a file name: the portion after the last `.`,
except that the leading character never starts an extension (a hidden file
like `.gitignore` has no extension). -/
def fileExtension (name : String) : Option String :=
  match name.data with
  | [] => none
  | _ :: rest => (afterLastDot rest).map fun cs => String.mk cs

/-- `fn is_supported_image(path: &Path) -> bool`, on the file name of the
path: the extension, ASCII-lowercased (`to_ascii_lowercase`), must be
`jpg`, `jpeg` or `png`. -/
def is_supported_image (name : String) : Bool :=
  match fileExtension name with
  | some ext =>
    let e := String.mk (ext.data.map Char.toLower)
    e = "jpg" || e = "jpeg" || e = "png"
  | none => false

/-- The file name of a component path (its last component). -/
def pathFileName (p : List String) : String := (p.getLast?).getD ""

/-- A component path rendered as a `/`-separated string (how the produced
`PathBuf` displays relative to the scan root). -/
def joinPath (p : List String) : String :=
  String.mk ((p.map String.data).intersperse ['/']).flatten

/-- `fn scan_folder_with(path, opts) -> Result<Vec<ImageInfo>>`: missing
root and non-directory root fail with the corresponding messages before any
record is produced; otherwise every walked file with a supported image
extension becomes a record with `present = false` and
`classification = None`.  Paths are reproduced as `/`-joined component
strings. -/
def scan_folder_with (root : ScanRoot) (recursive : Bool) :
    Except String (List ImageInfo) :=
  match root with
  | .missing => .error "Path does not exist"
  | .notDir => .error "Path is not a directory"
  | .isDir entries =>
    let walked := if recursive then deepFiles entries else topFiles entries
    .ok ((walked.filter (fun p => is_supported_image (pathFileName p))).map
      (fun p => { file := joinPath p
                  present := false
                  classification := none }))

/-- The `(species, confidence)` fields computed for one record by the loop
body of `export_csv`. -/
def csvFields (info : ImageInfo) : Option String × Option ℚ :=
  if info.present then
    match info.classification with
    | some c =>
      (match c.decision with
       | .Unknown => some "Unknown"
       | .Label name => some name, some c.confidence)
    | none => (none, none)
  else (none, none)

/-- One CSV row written by `export_csv` for a record; `fmt` is the Rust
`format!("{c}")` rendering of an `f32` as a plain decimal. -/
def csvRow (fmt : ℚ → String) (info : ImageInfo) : List String :=
  let sc := csvFields info
  [info.file,
   if info.present then "true" else "false",
   sc.1.getD "",
   (sc.2.map fmt).getD ""]

/-- `fn export_csv(rows, path)`: the header row followed by one row per
record, in order. -/
def export_csv (fmt : ℚ → String) (rows : List ImageInfo) :
    List (List String) :=
  ["file", "present", "species", "confidence"] :: rows.map (csvRow fmt)

/-! ## Bit-level machinery

The loops of `dhash_gray` and `bitwise_majority` both accumulate a word by
OR-ing in single bits.  `foldl_testBit_or` characterizes one `testBit` of
such a fold. -/

theorem testBit_ite_orShift (c : Prop) [Decidable c] (acc m j : ℕ) :
    (if c then acc ||| (1 <<< m) else acc).testBit j
      = (acc.testBit j || (decide c && decide (m = j))) := by
  by_cases h : c
  · rw [if_pos h, Nat.testBit_or, Nat.one_shiftLeft, Nat.testBit_two_pow]
    simp [h]
  · rw [if_neg h]
    simp [h]

theorem foldl_testBit_or (g : ℕ → ℕ → ℕ) (Q : ℕ → ℕ → Bool)
    (hg : ∀ acc i j, (g acc i).testBit j = (acc.testBit j || Q i j))
    (l : List ℕ) (init : ℕ) (j : ℕ) :
    (l.foldl g init).testBit j = (init.testBit j || l.any (fun i => Q i j)) := by
  induction l generalizing init with
  | nil => simp
  | cons a t ih =>
    simp only [List.foldl_cons, List.any_cons, ih, hg, Bool.or_assoc]

/-- The single `testBit` of `dhash_bits`: position `j` is set iff `j` is
`8*y + x` for a pair `(x, y)` in range whose left pixel strictly exceeds the
right. -/
theorem dhash_bits_testBit (small : SmallImage) (j : ℕ) :
    (dhash_bits small).testBit j
      = (List.range 8).any fun y =>
          (List.range 8).any fun x =>
            decide (small (x + 1) y < small x y) && decide (8 * y + x = j) := by
  unfold dhash_bits
  rw [foldl_testBit_or
    (Q := fun y j => (List.range 8).any fun x =>
      decide (small (x + 1) y < small x y) && decide (8 * y + x = j))]
  · simp
  · intro acc y j
    rw [foldl_testBit_or
      (Q := fun x j => decide (small (x + 1) y < small x y) && decide (8 * y + x = j))]
    intro acc x j
    exact testBit_ite_orShift _ acc _ j

/-- C6 bit rule in indexed form: for `y < 8` and `x < 8`, bit `8*y + x` of
the hash records whether the left pixel of the pair strictly exceeds the
right one. -/
theorem dhash_bits_testBit_pair (small : SmallImage) (y x : ℕ)
    (hy : y < 8) (hx : x < 8) :
    (dhash_bits small).testBit (8 * y + x)
      = decide (small (x + 1) y < small x y) := by
  rw [dhash_bits_testBit]
  by_cases hlt : small (x + 1) y < small x y
  · simp only [hlt, decide_True]
    rw [List.any_eq_true]
    refine ⟨y, List.mem_range.2 hy, ?_⟩
    rw [List.any_eq_true]
    exact ⟨x, List.mem_range.2 hx, by simp [hlt]⟩
  · simp only [hlt, decide_False]
    rw [List.any_eq_false]
    intro y' hy'
    rw [Bool.not_eq_true, List.any_eq_false]
    intro x' hx'
    simp only [List.mem_range] at hy' hx'
    rcases eq_or_ne (8 * y' + x') (8 * y + x) with heq | hne
    · have hp : y' = y ∧ x' = x := by omega
      rcases hp with ⟨rfl, rfl⟩
      simp [hlt]
    · simp [hne]

/-- Bits at or above 64 are never set by `dhash_bits`. -/
theorem dhash_bits_testBit_high (small : SmallImage) (j : ℕ) (hj : 64 ≤ j) :
    (dhash_bits small).testBit j = false := by
  rw [dhash_bits_testBit]
  rw [List.any_eq_false]
  intro y hy
  rw [Bool.not_eq_true, List.any_eq_false]
  intro x hx
  simp only [List.mem_range] at hy hx
  have hne : 8 * y + x ≠ j := by omega
  simp [hne]

/-- A fold whose step keeps values below `2 ^ 64` stays below `2 ^ 64`. -/
theorem foldl_lt_two_pow (g : ℕ → ℕ → ℕ) (l : List ℕ)
    (hg : ∀ acc, acc < 2 ^ 64 → ∀ i ∈ l, g acc i < 2 ^ 64)
    (init : ℕ) (h : init < 2 ^ 64) : l.foldl g init < 2 ^ 64 := by
  induction l generalizing init with
  | nil => simpa
  | cons a t ih =>
    exact ih (fun acc ha i hi => hg acc ha i (List.mem_cons_of_mem a hi)) _
      (hg init h a (List.mem_cons_self a t))

theorem ite_orShift_lt (c : Prop) [Decidable c] (acc m : ℕ)
    (ha : acc < 2 ^ 64) (hm : m < 64) :
    (if c then acc ||| (1 <<< m) else acc) < 2 ^ 64 := by
  by_cases h : c
  · rw [if_pos h, Nat.one_shiftLeft]
    exact Nat.or_lt_two_pow ha (Nat.pow_lt_pow_right (by omega) hm)
  · rwa [if_neg h]

/-- `dhash_bits` always fits in 64 bits. -/
theorem dhash_bits_lt (small : SmallImage) : dhash_bits small < 2 ^ 64 := by
  unfold dhash_bits
  refine foldl_lt_two_pow _ _ ?_ 0 (by norm_num)
  intro acc ha y hy
  refine foldl_lt_two_pow _ _ ?_ acc ha
  intro acc' ha' x hx
  simp only [List.mem_range] at hy hx
  exact ite_orShift_lt _ acc' _ ha' (by omega)

/-- C6: for every grayscale image, the perceptual hash is computed on the
9x8 nearest-neighbor thumbnail; for each of the 8 rows (`y < 8`) and each of
the 8 adjacent horizontal pixel pairs (`x < 8`), bit `8*y + x` (row-major
order) is set exactly when the left pixel's intensity strictly exceeds the
right's; and the resulting fingerprint always fits in 64 bits, whatever the
source image was. -/
theorem dhash_gray_spec (resize9x8 : GrayImage → SmallImage)
    (gray : GrayImage) :
    (∀ y < 8, ∀ x < 8,
      (dhash_gray resize9x8 gray).testBit (8 * y + x)
        = decide (resize9x8 gray (x + 1) y < resize9x8 gray x y))
    ∧ dhash_gray resize9x8 gray < 2 ^ 64 :=
  ⟨fun y hy x hx => dhash_bits_testBit_pair _ y x hy hx, dhash_bits_lt _⟩

/-- Witness for `dhash_gray_spec` at a concrete image whose intensities
decrease to the right, checked at row 0, pair 0. -/
theorem dhash_gray_spec_witness :
    (dhash_gray (fun g => g) (fun x _y => 10 - x)).testBit 0 = true
    ∧ dhash_gray (fun g => g) (fun x _y => 10 - x) < 2 ^ 64 := by
  have h := dhash_gray_spec (fun g => g) (fun x _y => 10 - x)
  refine ⟨?_, h.2⟩
  have h0 := h.1 0 (by norm_num) 0 (by norm_num)
  simpa using h0

/-! ## The decision rule of the cluster-model detector (C4) -/

/-- C4: `detect_present` computes the image's fingerprint and flags presence
exactly when the Hamming distance from the fingerprint to the *nearer* of
the two centroids (a tie selecting `c0`) strictly exceeds
`mean + k·stddev` for that centroid; and `k` defaults to `2.5`. -/
theorem detect_present_decision_rule :
    (∀ (resize9x8 : GrayImage → SmallImage) (env : DecodeEnv)
        (d : BgDiffDetector) (p : String) (h : ℕ),
        dhash_path resize9x8 env p = .ok h →
        BgDiffDetector.detect_present resize9x8 env d p = .ok (d.decide h))
    ∧ (∀ (d : BgDiffDetector) (h : ℕ),
        d.decide h = true ↔
          (if (hamming d.c0 h : ℚ) ≤ (hamming d.c1 h : ℚ)
           then d.mean0 + d.k * d.std0 else d.mean1 + d.k * d.std1)
            < min (hamming d.c0 h : ℚ) (hamming d.c1 h : ℚ))
    ∧ BgDiffDetector.default.k = 5 / 2 := by
  refine ⟨?_, ?_, rfl⟩
  · intro resize9x8 env d p h hh
    unfold BgDiffDetector.detect_present
    rw [hh]
  · intro d h
    unfold BgDiffDetector.decide
    by_cases hle : (hamming d.c0 h : ℚ) ≤ (hamming d.c1 h : ℚ)
    · rw [if_pos hle, if_pos hle, min_eq_left hle]
      by_cases hlt : d.mean0 + d.k * d.std0 < (hamming d.c0 h : ℚ)
      · simp [hlt]
      · simp [hlt]
    · rw [if_neg hle, if_neg hle,
        min_eq_right (le_of_not_le hle)]
      by_cases hlt : d.mean1 + d.k * d.std1 < (hamming d.c1 h : ℚ)
      · simp [hlt]
      · simp [hlt]

/-- Witness for `detect_present_decision_rule`: the default detector on a
decodable path whose image hashes to `0`. -/
theorem detect_present_decision_rule_witness :
    BgDiffDetector.detect_present (fun g => g) (fun _ => some (fun _ _ => 0))
      BgDiffDetector.default "a"
      = .ok (BgDiffDetector.default.decide 0) :=
  detect_present_decision_rule.1 (fun g => g) (fun _ => some (fun _ _ => 0))
    BgDiffDetector.default "a" 0 (by rfl)

/-! ## The bitwise-majority vote -/

theorem range_any_decide_eq (n : ℕ) (P : ℕ → Bool) (i : ℕ) (hi : i < n) :
    ((List.range n).any fun j => P j && decide (j = i)) = P i := by
  by_cases h : P i = true
  · rw [h, List.any_eq_true]
    exact ⟨i, List.mem_range.2 hi, by simp [h]⟩
  · rw [Bool.not_eq_true] at h
    rw [h, List.any_eq_false]
    intro j hj
    rcases eq_or_ne j i with rfl | hne
    · simp [h]
    · simp [hne]

/-- The per-bit rule of `bitwise_majority`: bit `i` of the result is set
exactly when `i < 64` and at least half of the values have bit `i` set
(ties, `2 * count = n`, round toward setting the bit). -/
theorem bitwise_majority_testBit (vals : List ℕ) (i : ℕ) :
    (bitwise_majority vals).testBit i
      = decide (i < 64 ∧ vals.length ≤ 2 * cnt1 vals i) := by
  unfold bitwise_majority
  rw [foldl_testBit_or
    (Q := fun a j => decide (vals.length ≤ 2 * cnt1 vals a) && decide (a = j))]
  · simp only [Nat.zero_testBit, Bool.false_or]
    by_cases hi : i < 64
    · rw [range_any_decide_eq 64 _ i hi]
      simp [hi]
    · have : ¬ (i < 64 ∧ vals.length ≤ 2 * cnt1 vals i) := fun h => hi h.1
      simp only [this, decide_False]
      rw [List.any_eq_false]
      intro j hj
      simp only [List.mem_range] at hj
      have : j ≠ i := by omega
      simp [this]
  · intro acc a j
    exact testBit_ite_orShift _ acc a j

/-- `bitwise_majority` always fits in 64 bits. -/
theorem bitwise_majority_lt (vals : List ℕ) : bitwise_majority vals < 2 ^ 64 := by
  unfold bitwise_majority
  refine foldl_lt_two_pow _ _ ?_ 0 (by norm_num)
  intro acc ha i hi
  simp only [List.mem_range] at hi
  exact ite_orShift_lt _ acc i ha hi

/-- The refinement round exactly as §4.2 of the specification words it:
assign every fingerprint to the Hamming-closer centroid (a strictly closer
centroid wins; a tie favors `c0`), recompute each non-empty cluster's
centroid as the per-bit majority vote of its members, and leave a centroid
unchanged when its cluster became empty. -/
def k2_round_spec (vals : List ℕ) (c0 c1 : ℕ) : ℕ × ℕ × List ℕ :=
  let closer0 : ℕ → Prop := fun v =>
    hamming v c0 < hamming v c1 ∨ hamming v c0 = hamming v c1
  let assign := vals.map (fun v => if closer0 v then 0 else 1)
  let members0 := vals.filter (fun v => decide (closer0 v))
  let members1 := vals.filter (fun v => !(decide (closer0 v)))
  (if members0 = [] then c0 else bitwise_majority members0,
   if members1 = [] then c1 else bitwise_majority members1,
   assign)

theorem k2_round_eq_spec (vals : List ℕ) (s : ℕ × ℕ × List ℕ) :
    k2_round vals s = k2_round_spec vals s.1 s.2.1 := by
  unfold k2_round k2_round_spec
  have hiff : ∀ v : ℕ,
      (hamming v s.1 < hamming v s.2.1 ∨ hamming v s.1 = hamming v s.2.1)
        ↔ hamming v s.1 ≤ hamming v s.2.1 := fun v => le_iff_lt_or_eq.symm
  have hmap : ∀ v : ℕ,
      (if hamming v s.1 ≤ hamming v s.2.1 then (0 : ℕ) else 1)
        = (if hamming v s.1 < hamming v s.2.1 ∨ hamming v s.1 = hamming v s.2.1
           then (0 : ℕ) else 1) := by
    intro v
    by_cases h : hamming v s.1 ≤ hamming v s.2.1
    · rw [if_pos h, if_pos ((hiff v).2 h)]
    · rw [if_neg h, if_neg (fun hc => h ((hiff v).1 hc))]
  have hfilt : ∀ v : ℕ,
      (decide (hamming v s.1 ≤ hamming v s.2.1))
        = (decide (hamming v s.1 < hamming v s.2.1
            ∨ hamming v s.1 = hamming v s.2.1)) := by
    intro v
    simp only [decide_eq_decide]
    exact (hiff v).symm
  simp only [List.map_congr_left (fun v _ => hmap v)]
  have h0 : vals.filter (fun v => decide (hamming v s.1 ≤ hamming v s.2.1))
      = vals.filter (fun v =>
          decide (hamming v s.1 < hamming v s.2.1
            ∨ hamming v s.1 = hamming v s.2.1)) :=
    List.filter_congr (fun v _ => hfilt v)
  have h1 : vals.filter (fun v => decide (¬ (hamming v s.1 ≤ hamming v s.2.1)))
      = vals.filter (fun v =>
          !(decide (hamming v s.1 < hamming v s.2.1
            ∨ hamming v s.1 = hamming v s.2.1))) := by
    refine List.filter_congr (fun v _ => ?_)
    rw [decide_not, hfilt v]
  rw [h0, h1]
  simp [List.isEmpty_iff]

/-- The full §4.2 fitting pipeline in the specification's terms: seed `c0`
as the per-bit majority over the whole batch, seed `c1` as the farthest
fingerprint (complement fallback), then run exactly 5 spec rounds. -/
def fit_centroids_spec (hashes : List ℕ) : ℕ × ℕ :=
  let c0 := bitwise_majority hashes
  let c1 := (farthest_from c0 hashes).getD (c0 ^^^ (2 ^ 64 - 1))
  let r := (fun s : ℕ × ℕ × List ℕ => k2_round_spec hashes s.1 s.2.1)^[5]
    (c0, c1, List.replicate hashes.length 0)
  (r.1, r.2.1)

theorem k2_iterate_eq_spec (vals : List ℕ) (c0 c1 : ℕ) (iters : ℕ) :
    k2_hamming_centroids vals c0 c1 iters
      = (fun s : ℕ × ℕ × List ℕ => k2_round_spec vals s.1 s.2.1)^[iters]
          (c0, c1, List.replicate vals.length 0) := by
  have hfun : k2_round vals
      = (fun s : ℕ × ℕ × List ℕ => k2_round_spec vals s.1 s.2.1) :=
    funext (k2_round_eq_spec vals)
  rw [k2_hamming_centroids, hfun]

/-- On the successful path (`paths` nonempty, all hashes computed),
`prepare` stores exactly the centroids of the seeding-plus-five-rounds
pipeline. -/
theorem prepare_ok_centroids (sq : ℚ → ℚ) (resize9x8 : GrayImage → SmallImage)
    (env : DecodeEnv) (d st : BgDiffDetector) (paths : List String)
    (hashes : List ℕ)
    (hh : paths.mapM (dhash_path resize9x8 env) = .ok hashes)
    (hok : BgDiffDetector.prepare sq resize9x8 env d paths = .ok st)
    (hne : ¬ paths.isEmpty) :
    (st.c0, st.c1) = fit_centroids_spec hashes := by
  unfold BgDiffDetector.prepare at hok
  rw [if_neg hne, hh] at hok
  simp only [Except.ok.injEq] at hok
  subst hok
  rw [fit_centroids_spec, ← k2_iterate_eq_spec]

/-- The clamped stddev stored by `prepare` is strictly positive for every
raw value. -/
theorem clamp_pos (q : ℚ) : 0 < (if q ≤ 1 / 1000 then 1 else q) := by
  by_cases h : q ≤ 1 / 1000
  · rw [if_pos h]
    norm_num
  · rw [if_neg h]
    linarith [not_le.mp h]

/-- The member distances used by `cluster_stats`: the Hamming distances to
the centroid of the values assigned to cluster `which`. -/
def dsOf (vals : List ℕ) (c : ℕ) (assign : List ℕ) (which : ℕ) : List ℚ :=
  ((vals.zip assign).filter (fun p => p.2 = which)).map
    (fun p => (hamming c p.1 : ℚ))

/-- Mean of a list of distances (as the spec words it). -/
def meanOf (ds : List ℚ) : ℚ := ds.sum / ds.length

/-- Population variance of a list of distances. -/
def varOf (ds : List ℚ) : ℚ :=
  (ds.map (fun d => d * d)).sum / ds.length - meanOf ds * meanOf ds

/-- On the successful path `prepare` stores exactly the state computed by
the fitting pipeline (which this lemma spells out). -/
theorem prepare_ok_state (sq : ℚ → ℚ) (resize9x8 : GrayImage → SmallImage)
    (env : DecodeEnv) (d : BgDiffDetector) (paths : List String)
    (hashes : List ℕ)
    (hne : ¬ paths.isEmpty)
    (hh : paths.mapM (dhash_path resize9x8 env) = .ok hashes) :
    BgDiffDetector.prepare sq resize9x8 env d paths = .ok
      (let c0 := bitwise_majority hashes
       let c1 := (farthest_from c0 hashes).getD (c0 ^^^ (2 ^ 64 - 1))
       let r := k2_hamming_centroids hashes c0 c1 5
       let s0 := cluster_stats sq hashes r.1 r.2.2 0
       let s1 := cluster_stats sq hashes r.2.1 r.2.2 1
       { d with
         c0 := r.1, c1 := r.2.1
         mean0 := s0.1
         std0 := if s0.2 ≤ 1 / 1000 then 1 else s0.2
         mean1 := s1.1
         std1 := if s1.2 ≤ 1 / 1000 then 1 else s1.2 }) := by
  unfold BgDiffDetector.prepare
  rw [if_neg hne, hh]

/-- C3: `cluster_stats` returns the mean and (square root of the) variance
of the in-cluster Hamming distances to the cluster's own centroid; a
cluster with fewer than 1 member gets the safe default `(mean 0, stddev 1)`;
`prepare` replaces any computed stddev that is at most `1/1000` by `1`, so
both stored stddevs are strictly positive whenever `prepare` actually fits
a batch.  The statement quantifies over every possible square-root
function `sq`. -/
theorem cluster_stats_safe_stddev :
    (∀ (sq : ℚ → ℚ) (vals : List ℕ) (c : ℕ) (assign : List ℕ) (which : ℕ),
      dsOf vals c assign which = [] →
      cluster_stats sq vals c assign which = (0, 1))
    ∧ (∀ (sq : ℚ → ℚ) (vals : List ℕ) (c : ℕ) (assign : List ℕ) (which : ℕ),
        dsOf vals c assign which ≠ [] →
        cluster_stats sq vals c assign which
          = (meanOf (dsOf vals c assign which),
             sq (max (varOf (dsOf vals c assign which)) 0)))
    ∧ (∀ (sq : ℚ → ℚ) (resize9x8 : GrayImage → SmallImage) (env : DecodeEnv)
        (d st : BgDiffDetector) (paths : List String),
        ¬ paths.isEmpty →
        BgDiffDetector.prepare sq resize9x8 env d paths = .ok st →
        0 < st.std0 ∧ 0 < st.std1) := by
  refine ⟨?_, ?_, ?_⟩
  · intro sq vals c assign which hempty
    unfold dsOf at hempty
    have hfil := List.map_eq_nil_iff.mp hempty
    unfold cluster_stats
    rw [hfil]
    norm_num
  · intro sq vals c assign which hne
    unfold cluster_stats dsOf
    unfold dsOf at hne
    have hlen : ((vals.zip assign).filter (fun p => p.2 = which)).length ≠ 0 := by
      intro h0
      exact hne (by
        have := List.length_eq_zero.mp h0
        simp [this])
    have hcast : ¬ ((((vals.zip assign).filter (fun p => p.2 = which)).map
        (fun p => (hamming c p.1 : ℚ))).length : ℚ) < 1 := by
      rw [List.length_map]
      rw [not_lt]
      have h1 : 1 ≤ ((vals.zip assign).filter (fun p => p.2 = which)).length :=
        Nat.one_le_iff_ne_zero.mpr hlen
      exact_mod_cast h1
    rw [if_neg hcast]
    rfl
  · intro sq resize9x8 env d st paths hne hok
    unfold BgDiffDetector.prepare at hok
    rw [if_neg hne] at hok
    rcases hh : paths.mapM (dhash_path resize9x8 env) with e | hashes
    · rw [hh] at hok
      exact Except.noConfusion hok
    · rw [hh] at hok
      simp only [Except.ok.injEq] at hok
      subst hok
      exact ⟨clamp_pos _, clamp_pos _⟩

/-- Witness for `cluster_stats_safe_stddev`: the one-image batch from
`cluster_fitting_follows_spec_witness`; both stored stddevs come out
strictly positive. -/
theorem cluster_stats_safe_stddev_witness :
    ∃ st : BgDiffDetector,
      BgDiffDetector.prepare (fun q => q) (fun g => g)
        (fun _ => some (fun _ _ => 0)) BgDiffDetector.default ["a"] = .ok st
      ∧ 0 < st.std0 ∧ 0 < st.std1 := by
  rcases hok : BgDiffDetector.prepare (fun q => q) (fun g => g)
      (fun _ => some (fun _ _ => 0)) BgDiffDetector.default ["a"] with e | st
  · exfalso
    have hh : (["a"] : List String).mapM
        (dhash_path (fun g => g) (fun _ => some (fun _ _ => 0)))
        = .ok [0] := by rfl
    unfold BgDiffDetector.prepare at hok
    rw [if_neg (by decide), hh] at hok
    exact Except.noConfusion hok
  · exact ⟨st, rfl,
      cluster_stats_safe_stddev.2.2 (fun q => q) (fun g => g)
        (fun _ => some (fun _ _ => 0)) BgDiffDetector.default st ["a"]
        (by decide) hok⟩

/-- C5: cluster fitting follows the stated algorithm.  (i) `bitwise_majority`
sets bit `i` exactly when at least half of the fingerprints have it set
(`n ≤ 2·count`; a tie `2·count = n` rounds toward setting the bit), and only
bits below 64 are ever set.  (ii) Each round of `k2_hamming_centroids` is
the specification's round: assign every fingerprint to the Hamming-closer
centroid with ties favoring `c0`, recompute each non-empty cluster's
centroid as the per-bit majority vote of its members, and leave a centroid
unchanged when its cluster became empty.  (iii) `prepare` runs exactly 5
such rounds, seeded with the per-bit majority vote of the whole batch as
`c0`. -/
theorem cluster_fitting_follows_spec :
    (∀ (vals : List ℕ) (i : ℕ),
      (bitwise_majority vals).testBit i
        = decide (i < 64 ∧ vals.length ≤ 2 * cnt1 vals i))
    ∧ (∀ (vals : List ℕ) (s : ℕ × ℕ × List ℕ),
        k2_round vals s = k2_round_spec vals s.1 s.2.1)
    ∧ (∀ (vals : List ℕ) (c0 c1 : ℕ),
        k2_hamming_centroids vals c0 c1 5
          = (fun s : ℕ × ℕ × List ℕ => k2_round_spec vals s.1 s.2.1)^[5]
              (c0, c1, List.replicate vals.length 0))
    ∧ (∀ (sq : ℚ → ℚ) (resize9x8 : GrayImage → SmallImage) (env : DecodeEnv)
        (d st : BgDiffDetector) (paths : List String) (hashes : List ℕ),
        paths.mapM (dhash_path resize9x8 env) = .ok hashes →
        BgDiffDetector.prepare sq resize9x8 env d paths = .ok st →
        ¬ paths.isEmpty →
        (st.c0, st.c1) = fit_centroids_spec hashes) :=
  ⟨bitwise_majority_testBit, k2_round_eq_spec,
   fun vals c0 c1 => k2_iterate_eq_spec vals c0 c1 5,
   fun sq r env d st paths hashes hh hok hne =>
     prepare_ok_centroids sq r env d st paths hashes hh hok hne⟩

/-- Witness for `cluster_fitting_follows_spec`: a one-image batch whose
image decodes to the constant-zero raster; `prepare` succeeds and stores
the spec pipeline's centroids. -/
theorem cluster_fitting_follows_spec_witness :
    ∃ st : BgDiffDetector,
      BgDiffDetector.prepare (fun q => q) (fun g => g)
        (fun _ => some (fun _ _ => 0)) BgDiffDetector.default ["a"] = .ok st
      ∧ (st.c0, st.c1) = fit_centroids_spec [0] := by
  have hh : (["a"] : List String).mapM
      (dhash_path (fun g => g) (fun _ => some (fun _ _ => 0)))
      = .ok [0] := by rfl
  have hne : ¬ (["a"] : List String).isEmpty := by decide
  rcases hok : BgDiffDetector.prepare (fun q => q) (fun g => g)
      (fun _ => some (fun _ _ => 0)) BgDiffDetector.default ["a"] with e | st
  · exfalso
    unfold BgDiffDetector.prepare at hok
    rw [if_neg hne, hh] at hok
    exact Except.noConfusion hok
  · exact ⟨st, rfl,
      cluster_fitting_follows_spec.2.2.2 (fun q => q) (fun g => g)
        (fun _ => some (fun _ _ => 0)) BgDiffDetector.default st ["a"] [0]
        hh hok hne⟩

end Feeder

namespace Feeder

/-! ## apply_presence: error isolation (C1) and frame effect (C10) -/

/-- The decode environment of the counterexample: the path `bad` fails to
decode, every other path decodes to the constant-zero raster. -/
def cexEnv : DecodeEnv :=
  fun p => if p = "bad" then none else some (fun _ _ => 0)

/-- C1 counterexample: with the Cluster-Model detector, a single bad image
in the batch makes the *whole* `apply_presence` call fail, because the
decode error surfaces inside `prepare` and `apply_presence` propagates it
with `?` before any record is updated. -/
theorem apply_presence_single_bad_image_fails_call :
    apply_presence (bgDiffDetector (fun q => q) (fun g => g) cexEnv)
      BgDiffDetector.default
      [{ file := "good", present := false, classification := none },
       { file := "bad", present := false, classification := none }]
      = .error ("image decode failed: " ++ "bad") := by
  rfl

/-- C1 as amended: whenever the detector's `prepare` step succeeds on the
batch, the call completes with one output record per input record; each
record keeps its file, a per-image `detect_present` failure is resolved to
`present = false` for that record only, and a per-image success stores the
detector's verdict. -/
theorem apply_presence_detect_errors_isolated {σ : Type} (d : Detector σ)
    (s s' : σ) (rows : List ImageInfo)
    (hp : d.prepare s (rows.map ImageInfo.file) = .ok s') :
    ∃ out : List ImageInfo,
      apply_presence d s rows = .ok (s', out)
      ∧ out.length = rows.length
      ∧ ∀ i : ℕ, ∀ info ∈ out[i]?, ∀ orig ∈ rows[i]?,
          info.file = orig.file
          ∧ info.classification = orig.classification
          ∧ info.present = (match d.detect_present s' orig.file with
                            | .ok p => p
                            | .error _ => false) := by
  refine ⟨rows.map (fun info =>
    match d.detect_present s' info.file with
    | .ok p => { info with present := p }
    | .error _ => { info with present := false }), ?_, ?_, ?_⟩
  · unfold apply_presence
    rw [hp]
  · exact List.length_map rows _
  · intro i info hinfo orig horig
    rw [List.getElem?_map] at hinfo
    rw [horig] at hinfo
    simp only [Option.map_some', Option.mem_def, Option.some.injEq] at hinfo
    subst hinfo
    rcases hdet : d.detect_present s' orig.file with e | b
    · simp [hdet]
    · simp [hdet]

/-- Witness for `apply_presence_detect_errors_isolated`: a detector whose
`prepare` is a no-op and whose `detect_present` fails on `bad` and answers
`true` elsewhere; the bad record is resolved to `present = false`, the good
record to `present = true`, and the call completes. -/
theorem apply_presence_detect_errors_isolated_witness :
    ∃ out : List ImageInfo,
      apply_presence
        { prepare := fun s _ => .ok s
          detect_present := fun _ p =>
            if p = "bad" then .error "boom" else .ok true }
        () [{ file := "good", present := false, classification := none },
            { file := "bad", present := false, classification := none }]
        = .ok ((), out)
      ∧ out.length = 2
      ∧ ∀ i : ℕ, ∀ info ∈ out[i]?,
          ∀ orig ∈ ([{ file := "good", present := false,
                       classification := none },
                     { file := "bad", present := false,
                       classification := none }] : List ImageInfo)[i]?,
          info.file = orig.file
          ∧ info.classification = orig.classification
          ∧ info.present
              = (match (if orig.file = "bad"
                        then (.error "boom" : Except String Bool)
                        else .ok true) with
                 | .ok p => p
                 | .error _ => false) := by
  have h := apply_presence_detect_errors_isolated
    { prepare := fun s _ => .ok s
      detect_present := fun _ p =>
        if p = "bad" then .error "boom" else .ok true }
    () ()
    [{ file := "good", present := false, classification := none },
     { file := "bad", present := false, classification := none }]
    (by rfl)
  rcases h with ⟨out, hout, hlen, hfields⟩
  exact ⟨out, hout, hlen, hfields⟩

/-- C10: `apply_presence` only ever touches the `present` field: whatever
the detector does (including failing in `prepare`, in which case the rows
are left untouched), the record list keeps its length and order, and every
record keeps its `file` and `classification`. -/
theorem apply_presence_frame {σ : Type} (d : Detector σ) (s : σ)
    (rows : List ImageInfo) :
    (apply_presence_rows d s rows).length = rows.length
    ∧ ∀ i : ℕ, ∀ a ∈ (apply_presence_rows d s rows)[i]?, ∀ b ∈ rows[i]?,
        a.file = b.file ∧ a.classification = b.classification := by
  unfold apply_presence_rows apply_presence
  rcases hp : d.prepare s (rows.map ImageInfo.file) with e | s'
  · constructor
    · rfl
    · intro i a ha b hb
      rw [ha] at hb
      cases hb
      exact ⟨rfl, rfl⟩
  · constructor
    · exact List.length_map rows _
    · intro i a ha b hb
      rw [List.getElem?_map, hb] at ha
      simp only [Option.map_some', Option.mem_def, Option.some.injEq] at ha
      subst ha
      rcases hdet : d.detect_present s' b.file with e | p
      · simp [hdet]
      · simp [hdet]

end Feeder

namespace Feeder

/-! ## Folder scanning (C8) -/

/-- `p` is the component path of a file somewhere below a directory's
entry list. -/
inductive IsFilePath : FsEntries → List String → Prop where
  | here {es : FsEntries} {n : String}
      (h : FsTree.file n ∈ es.toList) : IsFilePath es [n]
  | there {es : FsEntries} {n : String} {sub : FsEntries} {p : List String}
      (h : FsTree.dir n sub ∈ es.toList) (hp : IsFilePath sub p) :
      IsFilePath es (n :: p)

mutual
/-- Walk membership below one entry, characterized. -/
theorem mem_allFiles (t : FsTree) (p : List String) :
    p ∈ t.allFiles ↔
      (∃ n, t = .file n ∧ p = [n])
      ∨ (∃ n sub q, t = .dir n sub ∧ p = n :: q ∧ IsFilePath sub q) := by
  cases t with
  | file n =>
    simp only [FsTree.allFiles, List.mem_singleton]
    constructor
    · intro h
      exact Or.inl ⟨n, rfl, h⟩
    · rintro (⟨n', hn, hp⟩ | ⟨n', sub, q, hd, _⟩)
      · cases hn
        exact hp
      · exact FsTree.noConfusion hd
  | dir n es =>
    simp only [FsTree.allFiles, List.mem_map]
    constructor
    · rintro ⟨q, hq, rfl⟩
      exact Or.inr ⟨n, es, q, rfl, rfl, (mem_allFilesEntries es q).1 hq⟩
    · rintro (⟨n', hn, _⟩ | ⟨n', sub, q, hd, hp, hq⟩)
      · exact FsTree.noConfusion hn
      · obtain ⟨hn', hsub⟩ := FsTree.dir.inj hd
        subst hn'
        subst hsub
        exact ⟨q, (mem_allFilesEntries es q).2 hq, hp.symm⟩

/-- Walk membership below a directory's entry list is exactly
`IsFilePath`. -/
theorem mem_allFilesEntries (es : FsEntries) (p : List String) :
    p ∈ allFilesEntries es ↔ IsFilePath es p := by
  cases es with
  | nil =>
    simp only [allFilesEntries, List.not_mem_nil, false_iff]
    intro h
    cases h with
    | here h => exact (List.not_mem_nil _ h).elim
    | there h _ => exact (List.not_mem_nil _ h).elim
  | cons t ts =>
    simp only [allFilesEntries, List.mem_append]
    constructor
    · rintro (ht | hts)
      · rcases (mem_allFiles t p).1 ht with ⟨n, rfl, rfl⟩ | ⟨n, sub, q, rfl, rfl, hq⟩
        · exact IsFilePath.here (by simp [FsEntries.toList])
        · exact IsFilePath.there (by simp [FsEntries.toList]) hq
      · have h := (mem_allFilesEntries ts p).1 hts
        cases h with
        | here h => exact IsFilePath.here (by simp [FsEntries.toList, h])
        | there h hp => exact IsFilePath.there (by simp [FsEntries.toList, h]) hp
    · intro h
      cases h with
      | here h =>
        rename_i n
        rw [FsEntries.toList, List.mem_cons] at h
        rcases h with h | h
        · exact Or.inl ((mem_allFiles t _).2 (Or.inl ⟨n, h.symm, rfl⟩))
        · exact Or.inr ((mem_allFilesEntries ts _).2 (IsFilePath.here h))
      | there h hp =>
        rename_i n sub q
        rw [FsEntries.toList, List.mem_cons] at h
        rcases h with h | h
        · exact Or.inl ((mem_allFiles t _).2
            (Or.inr ⟨n, sub, q, h.symm, rfl, hp⟩))
        · exact Or.inr ((mem_allFilesEntries ts _).2 (IsFilePath.there h hp))
end

/-- `topFiles` yields exactly the direct-child files. -/
theorem mem_topFiles (es : FsEntries) (p : List String) :
    p ∈ topFiles es ↔ ∃ n, p = [n] ∧ FsTree.file n ∈ es.toList := by
  unfold topFiles
  rw [List.mem_filterMap]
  constructor
  · rintro ⟨e, he, hsome⟩
    cases e with
    | file n =>
      simp only [Option.some.injEq] at hsome
      exact ⟨n, hsome.symm, he⟩
    | dir n sub => exact Option.noConfusion hsome
  · rintro ⟨n, rfl, hmem⟩
    exact ⟨.file n, hmem, rfl⟩

/-- The directory of the specification's scanning example:
`a.JPG, b.jpeg, c.png, not-image.txt` and a nested subfolder holding
`d.jpg`. -/
def exampleDir : FsEntries :=
  .cons (.file "a.JPG") (.cons (.file "b.jpeg") (.cons (.file "c.png")
    (.cons (.file "not-image.txt")
      (.cons (.dir "nested" (.cons (.file "d.jpg") .nil)) .nil))))

/-- C8: folder scanning fails with "path does not exist" for a missing
root and "path is not a directory" for a non-directory root, before any
record is produced; otherwise it returns one
`present = false, classification = none` record per walked file whose
extension is `jpg`/`jpeg`/`png` case-insensitively, where the walk covers
exactly the direct-child files when non-recursive and exactly the files of
the whole subtree when recursive; on the specification's example directory
the non-recursive scan returns exactly `a.JPG, b.jpeg, c.png` and the
recursive scan additionally returns `nested/d.jpg`. -/
theorem scan_folder_with_contract :
    (∀ r : Bool, scan_folder_with .missing r = .error "Path does not exist")
    ∧ (∀ r : Bool,
        scan_folder_with .notDir r = .error "Path is not a directory")
    ∧ (∀ (entries : FsEntries) (r : Bool),
        scan_folder_with (.isDir entries) r
          = .ok (((if r then deepFiles entries else topFiles entries).filter
              (fun p => is_supported_image (pathFileName p))).map
              (fun p => { file := joinPath p, present := false
                          classification := none })))
    ∧ (∀ (entries : FsEntries) (p : List String),
        (p ∈ deepFiles entries ↔ IsFilePath entries p)
        ∧ (p ∈ topFiles entries
            ↔ ∃ n, p = [n] ∧ FsTree.file n ∈ entries.toList))
    ∧ scan_folder_with (.isDir exampleDir) false
        = .ok [{ file := "a.JPG", present := false, classification := none },
               { file := "b.jpeg", present := false, classification := none },
               { file := "c.png", present := false, classification := none }]
    ∧ scan_folder_with (.isDir exampleDir) true
        = .ok [{ file := "a.JPG", present := false, classification := none },
               { file := "b.jpeg", present := false, classification := none },
               { file := "c.png", present := false, classification := none },
               { file := "nested/d.jpg", present := false,
                 classification := none }] := by
  refine ⟨fun _ => rfl, fun _ => rfl, fun _ _ => rfl, ?_, by rfl, by rfl⟩
  intro entries p
  exact ⟨mem_allFilesEntries entries p, mem_topFiles entries p⟩

end Feeder

namespace Feeder

/-! ## CSV export (C9) -/

/-- C9: `export_csv` writes a header plus one row per record with columns
`file, present, species, confidence`; `species` is `"Unknown"` when the
decision is `Unknown` and the record is present, the species name when
labeled, and empty when `present` is false or no classification exists;
`confidence` is empty under the same no-classification condition and
otherwise the probability rendered by the plain-decimal formatter `fmt`. -/
theorem export_csv_contract (fmt : ℚ → String) (rows : List ImageInfo) :
    export_csv fmt rows
      = ["file", "present", "species", "confidence"] :: rows.map (csvRow fmt)
    ∧ (∀ (info : ImageInfo) (c : Classification),
        info.present = true → info.classification = some c →
        c.decision = .Unknown →
        csvRow fmt info = [info.file, "true", "Unknown", fmt c.confidence])
    ∧ (∀ (info : ImageInfo) (c : Classification) (name : String),
        info.present = true → info.classification = some c →
        c.decision = .Label name →
        csvRow fmt info = [info.file, "true", name, fmt c.confidence])
    ∧ (∀ info : ImageInfo, info.present = false →
        csvRow fmt info = [info.file, "false", "", ""])
    ∧ (∀ info : ImageInfo, info.classification = none →
        csvRow fmt info
          = [info.file, if info.present then "true" else "false", "", ""]) := by
  refine ⟨rfl, ?_, ?_, ?_, ?_⟩
  · intro info c hpres hcls hdec
    simp [csvRow, csvFields, hpres, hcls, hdec]
  · intro info c name hpres hcls hdec
    simp [csvRow, csvFields, hpres, hcls, hdec]
  · intro info hpres
    simp [csvRow, csvFields, hpres]
  · intro info hcls
    by_cases hpres : info.present
    · simp [csvRow, csvFields, hpres, hcls]
    · simp [csvRow, csvFields, hpres, hcls]

/-- Witness for `export_csv_contract` on the specification's example rows:
an absent record and a present `Unknown`-decision record. -/
theorem export_csv_contract_witness :
    csvRow (fun _ => "0.42")
      { file := "a.jpg", present := false, classification := none }
      = ["a.jpg", "false", "", ""]
    ∧ csvRow (fun _ => "0.42")
      { file := "b.jpg", present := true
        classification := some { decision := .Unknown, confidence := 42/100 } }
      = ["b.jpg", "true", "Unknown", "0.42"] :=
  ⟨(export_csv_contract (fun _ => "0.42") []).2.2.2.1
      { file := "a.jpg", present := false, classification := none } rfl,
   (export_csv_contract (fun _ => "0.42") []).2.1
      { file := "b.jpg", present := true
        classification := some { decision := .Unknown, confidence := 42/100 } }
      { decision := .Unknown, confidence := 42/100 } rfl rfl rfl⟩

end Feeder

namespace Feeder

/-! ## The heuristic detector (C7) -/

/-- The uniform blank 64x64 image of the specification's example, as its
row-major pixel list (all 64*64 intensities are 255). -/
def blankImage : List ℕ := List.replicate (64 * 64) 255

/-- The same 64x64 image with a contrasting 32x32 block: intensity 0 for
`16 ≤ x < 48`, `16 ≤ y < 48`, as in the repository's test
(`heuristic_detector_blank_vs_shape`). -/
def rectImage : List ℕ :=
  (List.range 64).flatMap fun y => (List.range 64).map fun x =>
    if 16 ≤ x ∧ x < 48 ∧ 16 ≤ y ∧ y < 48 then 0 else 255

theorem grayVariance_replicate (n c : ℕ) (hn : n ≠ 0) :
    grayVariance (List.replicate n c) = 0 := by
  unfold grayVariance
  simp only [List.map_replicate, List.sum_replicate, List.length_replicate,
    nsmul_eq_mul]
  have hnq : (n : ℚ) ≠ 0 := Nat.cast_ne_zero.mpr hn
  field_simp

set_option maxRecDepth 4000 in
theorem rectImage_sum : rectImage.sum = 783360 := by
  unfold rectImage
  rw [List.flatMap_def, List.sum_flatten, List.map_map]
  decide

set_option maxRecDepth 4000 in
theorem rectImage_sum_sq : (rectImage.map (fun p => p * p)).sum = 199756800 := by
  unfold rectImage
  rw [List.map_flatMap, List.flatMap_def, List.sum_flatten, List.map_map]
  decide

set_option maxRecDepth 4000 in
theorem rectImage_length : rectImage.length = 4096 := by
  unfold rectImage
  rw [List.flatMap_def, List.length_flatten, List.map_map]
  decide

theorem grayVariance_rect : grayVariance rectImage = 195075 / 16 := by
  have hsum : rectImage.sum = 783360 := rectImage_sum
  have hsum2 : (rectImage.map (fun p => p * p)).sum = 199756800 := rectImage_sum_sq
  have hlen : rectImage.length = 4096 := rectImage_length
  unfold grayVariance
  rw [hlen]
  have h1 : ((rectImage.map (Nat.cast : ℕ → ℚ)).sum) = 783360 := by
    rw [← Nat.cast_list_sum, hsum]
    norm_num
  have h2 : ((rectImage.map (fun p => (Nat.cast p : ℚ) * Nat.cast p)).sum)
      = 199756800 := by
    have hf : rectImage.map (fun p => (Nat.cast p : ℚ) * Nat.cast p)
        = (rectImage.map (fun p => p * p)).map (Nat.cast : ℕ → ℚ) := by
      rw [List.map_map]
      refine List.map_congr_left fun p _ => ?_
      simp [Nat.cast_mul]
    rw [hf, ← Nat.cast_list_sum, hsum2]
    norm_num
  rw [h1, h2]
  norm_num

/-- C7: the heuristic detector flags presence exactly when the grayscale
standard deviation of the (down-sampled) image is at least the configured
threshold — equivalently, for a nonnegative threshold, when the clamped
variance is at least the threshold's square; the defaults are threshold 10
and sample size 64; under those defaults the uniform blank 64x64 image is
not flagged and the same image with a 32x32 contrasting block is
flagged. -/
theorem heuristic_detector_contract :
    (∀ (det : HeuristicDetector) (pixels : List ℕ),
      0 ≤ det.stddev_threshold →
      (det.presentOn pixels ↔
        det.stddev_threshold * det.stddev_threshold
          ≤ max (grayVariance pixels) 0))
    ∧ HeuristicDetector.default.stddev_threshold = 10
    ∧ HeuristicDetector.default.sample_size = 64
    ∧ ¬ HeuristicDetector.default.presentOn blankImage
    ∧ HeuristicDetector.default.presentOn rectImage := by
  have hiff : ∀ (det : HeuristicDetector) (pixels : List ℕ),
      0 ≤ det.stddev_threshold →
      (det.presentOn pixels ↔
        det.stddev_threshold * det.stddev_threshold
          ≤ max (grayVariance pixels) 0) := by
    intro det pixels ht
    unfold HeuristicDetector.presentOn
    rw [Real.le_sqrt (by exact_mod_cast ht)
      (by positivity)]
    rw [show ((det.stddev_threshold : ℝ)) ^ 2
        = ((det.stddev_threshold * det.stddev_threshold : ℚ) : ℝ) by
      push_cast
      ring]
    exact_mod_cast Iff.rfl
  have hd : HeuristicDetector.default.stddev_threshold = 10 := rfl
  refine ⟨hiff, rfl, rfl, ?_, ?_⟩
  · rw [hiff HeuristicDetector.default blankImage (by rw [hd]; norm_num)]
    rw [blankImage, grayVariance_replicate (64 * 64) 255 (by norm_num), hd]
    norm_num
  · rw [hiff HeuristicDetector.default rectImage (by rw [hd]; norm_num)]
    rw [grayVariance_rect, hd]
    norm_num

/-- Witness for `heuristic_detector_contract`: its threshold-nonnegativity
hypothesis discharged at the default detector on the blank image. -/
theorem heuristic_detector_contract_witness :
    HeuristicDetector.default.presentOn blankImage ↔
      HeuristicDetector.default.stddev_threshold
          * HeuristicDetector.default.stddev_threshold
        ≤ max (grayVariance blankImage) 0 :=
  heuristic_detector_contract.1 HeuristicDetector.default blankImage
    (by rw [show HeuristicDetector.default.stddev_threshold = 10 from rfl]
        norm_num)

end Feeder

namespace Feeder

/-! ## Counting machinery for the centroid-distinctness proof (C2)

The no-collapse argument for the two cluster centroids is a counting
argument over the bit positions where the two current centroids disagree.
This section builds the double-counting toolkit: per-bit agreement counts,
their sums over bit lists, and the exchange between per-bit and per-member
summation. -/

/-- The bit positions (below 64) where `a` and `b` disagree. -/
def diffBits (a b : ℕ) : List ℕ :=
  (List.range 64).filter fun i => !(a.testBit i == b.testBit i)

/-- Count of members of `S` that agree with `b` at bit `i`. -/
def agrB (b : ℕ) (S : List ℕ) (i : ℕ) : ℕ :=
  S.countP fun v => v.testBit i == b.testBit i

/-- Total agreement of `S` with `b` over the bits of `I`. -/
def wSum (b : ℕ) (S : List ℕ) (I : List ℕ) : ℕ := (I.map (agrB b S)).sum

/-- Number of bits of `I` at which `v` agrees with `b`. -/
def tB (b : ℕ) (I : List ℕ) (v : ℕ) : ℕ :=
  I.countP fun i => v.testBit i == b.testBit i

theorem sum_map_add {α : Type} (f g : α → ℕ) (l : List α) :
    (l.map (fun v => f v + g v)).sum = (l.map f).sum + (l.map g).sum := by
  induction l with
  | nil => rfl
  | cons a t ih =>
    simp only [List.map_cons, List.sum_cons, ih]
    omega

theorem sum_map_ite_eq_countP {α : Type} (p : α → Bool) (l : List α) :
    (l.map (fun v => if p v then 1 else 0)).sum = l.countP p := by
  induction l with
  | nil => rfl
  | cons a t ih =>
    rw [List.map_cons, List.sum_cons, ih, List.countP_cons]
    by_cases h : p a
    · simp only [h, if_true]
      omega
    · simp only [h, if_false]
      omega

/-- Double counting: summing per-bit agreement counts over the bits equals
summing per-member agreement counts over the members. -/
theorem wSum_eq_sum_tB (b : ℕ) (S I : List ℕ) :
    wSum b S I = (S.map (tB b I)).sum := by
  induction I with
  | nil =>
    have hz : S.map (tB b []) = S.map fun _ => 0 :=
      List.map_congr_left fun v _ => rfl
    simp [wSum, hz]
  | cons i t ih =>
    unfold wSum at ih ⊢
    rw [List.map_cons, List.sum_cons, ih]
    have ht : S.map (tB b (i :: t))
        = S.map (fun v => tB b t v
            + (if v.testBit i == b.testBit i then 1 else 0)) := by
      refine List.map_congr_left fun v _ => ?_
      rw [tB, List.countP_cons, tB]
    rw [ht, sum_map_add, sum_map_ite_eq_countP]
    unfold agrB
    omega

theorem wSum_append_bits (b : ℕ) (S I₁ I₂ : List ℕ) :
    wSum b S (I₁ ++ I₂) = wSum b S I₁ + wSum b S I₂ := by
  unfold wSum
  rw [List.map_append, List.sum_append]

theorem wSum_append_members (b : ℕ) (S₁ S₂ I : List ℕ) :
    wSum b (S₁ ++ S₂) I = wSum b S₁ I + wSum b S₂ I := by
  unfold wSum
  have h : I.map (agrB b (S₁ ++ S₂))
      = I.map (fun i => agrB b S₁ i + agrB b S₂ i) := by
    refine List.map_congr_left fun i _ => ?_
    unfold agrB
    rw [List.countP_append]
  rw [h, sum_map_add]

theorem wSum_perm_members (b : ℕ) {S₁ S₂ : List ℕ} (h : S₁.Perm S₂)
    (I : List ℕ) : wSum b S₁ I = wSum b S₂ I := by
  unfold wSum
  have hm : I.map (agrB b S₁) = I.map (agrB b S₂) := by
    refine List.map_congr_left fun i _ => ?_
    unfold agrB
    exact h.countP_eq _
  rw [hm]

theorem wSum_perm_bits (b : ℕ) (S : List ℕ) {I₁ I₂ : List ℕ}
    (h : I₁.Perm I₂) : wSum b S I₁ = wSum b S I₂ :=
  (h.map (agrB b S)).sum_eq

/-- A sum of per-bit lower bounds `c + strictness` over a bit list. -/
theorem wSum_lower (b : ℕ) (S : List ℕ) (I : List ℕ) (c : ℕ)
    (h : ∀ i ∈ I, c + (if b.testBit i then 0 else 1) ≤ 2 * agrB b S i) :
    c * I.length + I.countP (fun i => !b.testBit i) ≤ 2 * wSum b S I := by
  induction I with
  | nil => simp [wSum]
  | cons i t ih =>
    have hi := h i (List.mem_cons_self i t)
    have ht := ih fun j hj => h j (List.mem_cons_of_mem i hj)
    unfold wSum at ht ⊢
    rw [List.map_cons, List.sum_cons, List.countP_cons, List.length_cons,
      Nat.mul_succ]
    by_cases hb : b.testBit i
    · rw [if_pos hb] at hi
      have h0 : (if (!b.testBit i) = true then 1 else 0) = 0 := by simp [hb]
      rw [h0]
      omega
    · rw [if_neg hb] at hi
      have h1 : (if (!b.testBit i) = true then 1 else 0) = 1 := by simp [hb]
      rw [h1]
      omega

/-- A sum of per-bit upper bounds over a bit list. -/
theorem wSum_upper (b : ℕ) (S : List ℕ) (I : List ℕ) (c : ℕ)
    (h : ∀ i ∈ I, 2 * agrB b S i + (if b.testBit i then 1 else 0) ≤ c) :
    2 * wSum b S I + I.countP (fun i => b.testBit i) ≤ c * I.length := by
  induction I with
  | nil => simp [wSum]
  | cons i t ih =>
    have hi := h i (List.mem_cons_self i t)
    have ht := ih fun j hj => h j (List.mem_cons_of_mem i hj)
    unfold wSum at ht ⊢
    rw [List.map_cons, List.sum_cons, List.countP_cons, List.length_cons,
      Nat.mul_succ]
    by_cases hb : b.testBit i
    · rw [if_pos hb] at hi
      have h1 : (if b.testBit i = true then 1 else 0) = 1 := by simp [hb]
      rw [h1]
      omega
    · rw [if_neg hb] at hi
      have h0 : (if b.testBit i = true then 1 else 0) = 0 := by simp [hb]
      rw [h0]
      omega

end Feeder

namespace Feeder

/-- `hamming` as a bit count over the 64 positions. -/
theorem hamming_eq_countP (x v : ℕ) :
    hamming v x = (List.range 64).countP fun i => v.testBit i != x.testBit i := by
  unfold hamming popcount64
  rw [← List.countP_eq_length_filter]
  refine List.countP_congr fun i _ => ?_
  cases hv : v.testBit i <;> cases hx : x.testBit i <;>
    simp [Nat.testBit_xor, hv, hx]

/-- The split of `countP` along a second Boolean condition. -/
theorem countP_split {α : Type} (p q : α → Bool) (l : List α) :
    l.countP p = l.countP (fun a => p a && q a)
      + l.countP (fun a => p a && !q a) := by
  induction l with
  | nil => rfl
  | cons a t ih =>
    rw [List.countP_cons, List.countP_cons, List.countP_cons, ih]
    cases hp : p a <;> cases hq : q a <;> simp [hp, hq] <;> omega

/-- Agreement with `y` on the disagreement bits, as a count over all 64
positions. -/
theorem tB_diffBits_eq (x y v : ℕ) :
    tB y (diffBits x y) v
      = (List.range 64).countP
          (fun i => (v.testBit i == y.testBit i) && !(x.testBit i == y.testBit i)) := by
  unfold tB diffBits
  rw [List.countP_filter]

/-- The bits outside the disagreement set contribute the same amount to the
distance from `x` and to the distance from `y`. -/
def outCount (x y v : ℕ) : ℕ :=
  (List.range 64).countP
    (fun i => (v.testBit i != x.testBit i) && (x.testBit i == y.testBit i))

theorem hamming_decomp_left (x y v : ℕ) :
    hamming v x = outCount x y v + tB y (diffBits x y) v := by
  rw [hamming_eq_countP, tB_diffBits_eq, outCount,
    countP_split (fun i => v.testBit i != x.testBit i)
      (fun i => x.testBit i == y.testBit i) (List.range 64)]
  congr 1
  refine List.countP_congr fun i _ => ?_
  cases hv : v.testBit i <;> cases hx : x.testBit i <;>
    cases hy : y.testBit i <;> simp

theorem hamming_decomp_right (x y v : ℕ) :
    hamming v y + tB y (diffBits x y) v
      = outCount x y v + (diffBits x y).length := by
  rw [hamming_eq_countP, tB_diffBits_eq, outCount,
    countP_split (fun i => v.testBit i != y.testBit i)
      (fun i => x.testBit i == y.testBit i) (List.range 64)]
  have h1 : (List.range 64).countP
      (fun i => (v.testBit i != y.testBit i) && (x.testBit i == y.testBit i))
      = (List.range 64).countP
        (fun i => (v.testBit i != x.testBit i) && (x.testBit i == y.testBit i)) := by
    refine List.countP_congr fun i _ => ?_
    cases hv : v.testBit i <;> cases hx : x.testBit i <;>
      cases hy : y.testBit i <;> simp
  have h2 : (diffBits x y).length
      = (List.range 64).countP
          (fun i => (v.testBit i == y.testBit i) && !(x.testBit i == y.testBit i))
        + (List.range 64).countP
          (fun i => (v.testBit i != y.testBit i) && !(x.testBit i == y.testBit i)) := by
    unfold diffBits
    rw [← List.countP_eq_length_filter,
      countP_split (fun i => !(x.testBit i == y.testBit i))
        (fun i => v.testBit i == y.testBit i) (List.range 64)]
    congr 1
    · refine List.countP_congr fun i _ => ?_
      cases hv : v.testBit i <;> cases hx : x.testBit i <;>
        cases hy : y.testBit i <;> simp
    · refine List.countP_congr fun i _ => ?_
      cases hv : v.testBit i <;> cases hx : x.testBit i <;>
        cases hy : y.testBit i <;> simp
  rw [h1, h2]
  omega

/-- Cluster-membership bridge: a value is (weakly) closer to `x` than to
`y` exactly when it agrees with `y` on at most half of the disagreement
bits. -/
theorem hamming_le_iff_tB (x y v : ℕ) :
    (hamming v x ≤ hamming v y
      ↔ 2 * tB y (diffBits x y) v ≤ (diffBits x y).length) := by
  have hl := hamming_decomp_left x y v
  have hr := hamming_decomp_right x y v
  have hT : tB y (diffBits x y) v ≤ (diffBits x y).length := by
    unfold tB
    exact List.countP_le_length _
  omega

end Feeder

namespace Feeder

/-! ## Per-bit consequences of the majority vote (C2) -/

theorem countP_not_add {α : Type} (p : α → Bool) (l : List α) :
    l.countP (fun a => !p a) + l.countP p = l.length := by
  induction l with
  | nil => rfl
  | cons a t ih =>
    rw [List.countP_cons, List.countP_cons, List.length_cons]
    cases ha : p a <;> simp [ha] <;> omega

theorem agrB_eq_cnt1 (b : ℕ) (S : List ℕ) (i : ℕ) (h : b.testBit i = true) :
    agrB b S i = cnt1 S i := by
  unfold agrB cnt1
  refine List.countP_congr fun v _ => ?_
  rw [h]
  cases v.testBit i <;> simp

theorem agrB_add_cnt1 (b : ℕ) (S : List ℕ) (i : ℕ) (h : b.testBit i = false) :
    agrB b S i + cnt1 S i = S.length := by
  unfold agrB cnt1
  have hc : S.countP (fun v => v.testBit i == b.testBit i)
      = S.countP (fun v => !(v.testBit i)) := by
    refine List.countP_congr fun v _ => ?_
    rw [h]
    cases v.testBit i <;> simp
  rw [hc]
  exact countP_not_add (fun v => v.testBit i) S

/-- If the majority's bit agrees with `b` there, at least half of the
members agree with `b` at that bit, strictly so when the bit of `b` is 0
(ties round to 1). -/
theorem agr_lower_of_maj_eq (b : ℕ) (S : List ℕ) (i : ℕ) (hi : i < 64)
    (hm : (bitwise_majority S).testBit i = b.testBit i) :
    S.length + (if b.testBit i then 0 else 1) ≤ 2 * agrB b S i := by
  rw [bitwise_majority_testBit] at hm
  cases hb : b.testBit i
  · rw [hb] at hm
    have h2 : ¬ (S.length ≤ 2 * cnt1 S i) := by
      intro hc
      simp [hi, hc] at hm
    have h3 := agrB_add_cnt1 b S i hb
    have h4 : (if false = true then (0 : ℕ) else 1) = 1 := rfl
    rw [h4]
    omega
  · rw [hb] at hm
    have h2 : S.length ≤ 2 * cnt1 S i := by
      by_contra hc
      simp [hi, hc] at hm
    rw [agrB_eq_cnt1 b S i hb]
    have h4 : (if true = true then (0 : ℕ) else 1) = 0 := rfl
    rw [h4]
    omega

/-- If the majority's bit disagrees with `b` there, at most half of the
members agree with `b` at that bit, strictly so when the bit of `b` is 1. -/
theorem agr_upper_of_maj_ne (b : ℕ) (S : List ℕ) (i : ℕ) (hi : i < 64)
    (hm : (bitwise_majority S).testBit i ≠ b.testBit i) :
    2 * agrB b S i + (if b.testBit i then 1 else 0) ≤ S.length := by
  rw [bitwise_majority_testBit] at hm
  cases hb : b.testBit i
  · rw [hb] at hm
    have h2 : S.length ≤ 2 * cnt1 S i := by
      by_contra hc
      exact hm (by simp [hc])
    have h3 := agrB_add_cnt1 b S i hb
    have h4 : (if false = true then (1 : ℕ) else 0) = 0 := rfl
    rw [h4]
    omega
  · rw [hb] at hm
    have h2 : ¬ (S.length ≤ 2 * cnt1 S i) := by
      intro hc
      exact hm (by simp [hi, hc])
    rw [agrB_eq_cnt1 b S i hb]
    have h4 : (if true = true then (1 : ℕ) else 0) = 1 := rfl
    rw [h4]
    omega

/-- A strict `b`-agreeing majority at a bit forces the majority vote to
take `b`'s value there. -/
theorem maj_bit_of_strict_agr (b : ℕ) (S : List ℕ) (i : ℕ) (hi : i < 64)
    (h : S.length + 1 ≤ 2 * agrB b S i) :
    (bitwise_majority S).testBit i = b.testBit i := by
  rw [bitwise_majority_testBit]
  cases hb : b.testBit i
  · have h3 := agrB_add_cnt1 b S i hb
    have h2 : ¬ (S.length ≤ 2 * cnt1 S i) := by omega
    simp [h2]
  · rw [agrB_eq_cnt1 b S i hb] at h
    have h2 : S.length ≤ 2 * cnt1 S i := by omega
    simp [hi, h2]

/-! ## Sum bounds over members and bits (C2) -/

theorem sum_map_le_mul {α : Type} (f : α → ℕ) (c : ℕ) (l : List α)
    (h : ∀ v ∈ l, f v ≤ c) : (l.map f).sum ≤ c * l.length := by
  induction l with
  | nil => simp
  | cons a t ih =>
    have ha := h a (List.mem_cons_self a t)
    have ht := ih fun v hv => h v (List.mem_cons_of_mem a hv)
    rw [List.map_cons, List.sum_cons, List.length_cons, Nat.mul_succ]
    omega

theorem mul_le_sum_map {α : Type} (f : α → ℕ) (c : ℕ) (l : List α)
    (h : ∀ v ∈ l, c ≤ f v) : c * l.length ≤ (l.map f).sum := by
  induction l with
  | nil => simp
  | cons a t ih =>
    have ha := h a (List.mem_cons_self a t)
    have ht := ih fun v hv => h v (List.mem_cons_of_mem a hv)
    rw [List.map_cons, List.sum_cons, List.length_cons, Nat.mul_succ]
    omega

theorem sum_map_two_mul {α : Type} (f : α → ℕ) (l : List α) :
    (l.map fun v => 2 * f v).sum = 2 * (l.map f).sum := by
  induction l with
  | nil => rfl
  | cons a t ih =>
    rw [List.map_cons, List.sum_cons, ih, List.map_cons, List.sum_cons]
    omega

theorem wSum_members_le (b : ℕ) (S I : List ℕ) (c : ℕ)
    (h : ∀ v ∈ S, 2 * tB b I v ≤ c) : 2 * wSum b S I ≤ c * S.length := by
  rw [wSum_eq_sum_tB, ← sum_map_two_mul]
  exact sum_map_le_mul _ c S h

theorem le_wSum_members (b : ℕ) (S I : List ℕ) (c : ℕ)
    (h : ∀ v ∈ S, c ≤ 2 * tB b I v) : c * S.length ≤ 2 * wSum b S I := by
  rw [wSum_eq_sum_tB, ← sum_map_two_mul]
  exact mul_le_sum_map _ c S h

/-- A sum of values bounded by `c` that attains `c * length` is constantly
`c`. -/
theorem eq_of_sum_map_eq {α : Type} (f : α → ℕ) (c : ℕ) (l : List α)
    (hle : ∀ v ∈ l, f v ≤ c) (hs : (l.map f).sum = c * l.length) :
    ∀ v ∈ l, f v = c := by
  induction l with
  | nil => intro v hv; exact absurd hv (List.not_mem_nil v)
  | cons a t ih =>
    have ha := hle a (List.mem_cons_self a t)
    have hlet := fun v hv => hle v (List.mem_cons_of_mem a hv)
    have htle : (t.map f).sum ≤ c * t.length := sum_map_le_mul f c t hlet
    rw [List.map_cons, List.sum_cons, List.length_cons, Nat.mul_succ] at hs
    have hfa : f a = c := by omega
    have hts : (t.map f).sum = c * t.length := by omega
    intro v hv
    rcases List.mem_cons.1 hv with rfl | hvt
    · exact hfa
    · exact ih hlet hts v hvt

end Feeder

namespace Feeder

/-! ## Splitting member lists and bit lists (C2) -/

theorem agrB_filter_split (b : ℕ) (S : List ℕ) (w : ℕ → Bool) (i : ℕ) :
    agrB b S i = agrB b (S.filter w) i + agrB b (S.filter fun v => !w v) i := by
  unfold agrB
  rw [List.countP_filter, List.countP_filter]
  exact countP_split _ w S

theorem wSum_filter_split (b : ℕ) (S I : List ℕ) (w : ℕ → Bool) :
    wSum b S I = wSum b (S.filter w) I + wSum b (S.filter fun v => !w v) I := by
  unfold wSum
  rw [← sum_map_add]
  exact congrArg List.sum (List.map_congr_left fun i _ => agrB_filter_split b S w i)

theorem length_filter_split {α : Type} (w : α → Bool) (l : List α) :
    l.length = (l.filter w).length + (l.filter fun v => !w v).length := by
  rw [← List.countP_eq_length_filter, ← List.countP_eq_length_filter]
  rw [Nat.add_comm]
  exact (countP_not_add w l).symm

/-! ## The disagreement bits of two 64-bit words (C2) -/

theorem mem_diffBits (a b i : ℕ) :
    i ∈ diffBits a b ↔ i < 64 ∧ a.testBit i ≠ b.testBit i := by
  unfold diffBits
  rw [List.mem_filter, List.mem_range]
  simp

theorem diffBits_ne_nil (a b : ℕ) (ha : a < 2 ^ 64) (hb : b < 2 ^ 64)
    (hab : a ≠ b) : diffBits a b ≠ [] := by
  intro h
  apply hab
  apply Nat.eq_of_testBit_eq
  intro i
  by_cases hi : i < 64
  · by_contra hne
    have hm : i ∈ diffBits a b := (mem_diffBits a b i).2 ⟨hi, hne⟩
    rw [h] at hm
    exact absurd hm (List.not_mem_nil i)
  · have hia : a < 2 ^ i :=
      lt_of_lt_of_le ha (Nat.pow_le_pow_right (by omega) (by omega))
    have hib : b < 2 ^ i :=
      lt_of_lt_of_le hb (Nat.pow_le_pow_right (by omega) (by omega))
    rw [Nat.testBit_lt_two_pow hia, Nat.testBit_lt_two_pow hib]

theorem hamming_eq_diff_length (a b : ℕ) :
    hamming a b = (diffBits a b).length := by
  unfold hamming popcount64 diffBits
  rw [← List.countP_eq_length_filter, ← List.countP_eq_length_filter]
  refine List.countP_congr fun i _ => ?_
  cases hx : a.testBit i <;> cases hy : b.testBit i <;>
    simp [Nat.testBit_xor, hx, hy]

theorem hamming_self (a : ℕ) : hamming a a = 0 := by
  unfold hamming
  rw [Nat.xor_self]
  rfl

theorem hamming_pos (a z : ℕ) (ha : a < 2 ^ 64) (hz : z < 2 ^ 64)
    (hne : a ≠ z) : 1 ≤ hamming a z := by
  rw [hamming_eq_diff_length]
  have h := diffBits_ne_nil a z ha hz hne
  have := List.length_pos.2 h
  omega

/-! ## The linear core of the no-collapse argument (C2)

The six summed inequalities of the counting argument, with every product
of two sizes already named, contradict each other.  `Pmb` stands for
`p * mb` and so on; `er` and `eq2` record the distributivity facts
`r * mb + r * ma = d * r` and `q * mb + q * ma = d * q`. -/

theorem chain_arith {wa0b wa1b wb0b wa1a wb0a wb1a : ℕ}
    {Pmb Rmb Qmb Rma Uma Qma Dq Dr q s1 s2 s3 s4 mb ma d : ℕ}
    (h1 : Pmb + Rmb + s2 ≤ 2 * (wa0b + wb0b))
    (h4 : Rma + Uma + s4 ≤ 2 * (wb0a + wb1a))
    (h6 : Dq + q ≤ 2 * (wa1b + wa1a))
    (h3 : 2 * (wa0b + wa1b) + s1 ≤ Pmb + Qmb)
    (h2 : 2 * (wa1a + wb1a) + s3 ≤ Qma + Uma)
    (h5 : 2 * (wb0b + wb0a) ≤ Dr)
    (hs12 : s1 + s2 = mb) (hs34 : s3 + s4 = ma) (hdsum : mb + ma = d)
    (er : Rmb + Rma = Dr) (eq2 : Qmb + Qma = Dq)
    (hd1 : 1 ≤ d) : False := by omega

/-! ## Clusters and the updated centroids of one refinement round (C2) -/

/-- The members assigned to centroid `a` (`assign == 0`). -/
def cluster0 (H : List ℕ) (a b : ℕ) : List ℕ :=
  H.filter (fun v => hamming v a ≤ hamming v b)

/-- The members assigned to centroid `b` (`assign == 1`). -/
def cluster1 (H : List ℕ) (a b : ℕ) : List ℕ :=
  H.filter (fun v => ¬ (hamming v a ≤ hamming v b))

/-- The first centroid after one round, as updated by `k2_round`. -/
def nextC0 (H : List ℕ) (a b : ℕ) : ℕ :=
  if (cluster0 H a b).isEmpty then a else bitwise_majority (cluster0 H a b)

/-- The second centroid after one round, as updated by `k2_round`. -/
def nextC1 (H : List ℕ) (a b : ℕ) : ℕ :=
  if (cluster1 H a b).isEmpty then b else bitwise_majority (cluster1 H a b)

theorem k2_round_c0 (H : List ℕ) (s : ℕ × ℕ × List ℕ) :
    (k2_round H s).1 = nextC0 H s.1 s.2.1 := rfl

theorem k2_round_c1 (H : List ℕ) (s : ℕ × ℕ × List ℕ) :
    (k2_round H s).2.1 = nextC1 H s.1 s.2.1 := rfl

theorem cluster1_eq_filter_not (H : List ℕ) (a b : ℕ) :
    cluster1 H a b
      = H.filter (fun v => !(decide (hamming v a ≤ hamming v b))) := by
  unfold cluster1
  exact List.filter_congr fun v _ => decide_not

theorem cluster_perm (H : List ℕ) (a b : ℕ) :
    H.Perm (cluster0 H a b ++ cluster1 H a b) := by
  rw [cluster1_eq_filter_not]
  exact (List.filter_append_perm
    (fun v => decide (hamming v a ≤ hamming v b)) H).symm

theorem cluster0_sub (H : List ℕ) (a b : ℕ) (v : ℕ) (hv : v ∈ H)
    (hw : hamming v a ≤ hamming v b) : v ∈ cluster0 H a b :=
  List.mem_filter.2 ⟨hv, decide_eq_true hw⟩

theorem cluster1_empty_all (H : List ℕ) (a b : ℕ) (h : cluster1 H a b = [])
    (v : ℕ) (hv : v ∈ H) : hamming v a ≤ hamming v b := by
  have hf := List.filter_eq_nil_iff.1 h v hv
  by_contra hc
  exact hf (decide_eq_true hc)

theorem cluster0_empty_all (H : List ℕ) (a b : ℕ) (h : cluster0 H a b = [])
    (v : ℕ) (hv : v ∈ H) : ¬ (hamming v a ≤ hamming v b) := by
  have hf := List.filter_eq_nil_iff.1 h v hv
  intro hc
  exact hf (decide_eq_true hc)

theorem cluster0_all (H : List ℕ) (a b : ℕ)
    (h : ∀ v ∈ H, hamming v a ≤ hamming v b) : cluster0 H a b = H :=
  List.filter_eq_self.2 fun v hv => decide_eq_true (h v hv)

theorem cluster1_all (H : List ℕ) (a b : ℕ)
    (h : ∀ v ∈ H, ¬ (hamming v a ≤ hamming v b)) : cluster1 H a b = H :=
  List.filter_eq_self.2 fun v hv => decide_eq_true (h v hv)

end Feeder

namespace Feeder

/-- Union compatibility of the tie-to-1 majority: two parts whose
majorities coincide force the same majority on the whole list. -/
theorem bitwise_majority_union (H S1 S2 : List ℕ) (hperm : H.Perm (S1 ++ S2))
    (h12 : bitwise_majority S1 = bitwise_majority S2) :
    bitwise_majority H = bitwise_majority S1 := by
  apply Nat.eq_of_testBit_eq
  intro i
  rw [bitwise_majority_testBit, bitwise_majority_testBit]
  by_cases hi : i < 64
  · have hft := congrArg (fun x => x.testBit i) h12
    simp only [bitwise_majority_testBit] at hft
    have hcount : cnt1 H i = cnt1 S1 i + cnt1 S2 i := by
      unfold cnt1
      rw [hperm.countP_eq, List.countP_append]
    have hlen : H.length = S1.length + S2.length := by
      rw [hperm.length_eq, List.length_append]
    rw [hcount, hlen]
    simp only [hi, true_and, decide_eq_decide] at hft ⊢
    by_cases hc : S1.length ≤ 2 * cnt1 S1 i
    · have hc2 := hft.1 hc
      simp only [hc, iff_true]
      omega
    · have hc2 : ¬ (S2.length ≤ 2 * cnt1 S2 i) := fun h => hc (hft.2 h)
      simp only [hc, iff_false]
      omega
  · simp [hi]

/-- Pigeonhole over the bits: a nonempty list whose members all agree with
`b` on strictly more than half of the bits of `I` has a bit of `I` at which
strictly more than half of the members agree with `b`. -/
theorem exists_strict_bit (b : ℕ) (I S : List ℕ) (hS : S ≠ [])
    (h : ∀ v ∈ S, I.length + 1 ≤ 2 * tB b I v) :
    ∃ i ∈ I, S.length + 1 ≤ 2 * agrB b S i := by
  by_contra hc
  push_neg at hc
  have hup : ∀ i ∈ I, 2 * agrB b S i ≤ S.length := by
    intro i hi
    have := hc i hi
    omega
  have h1 : 2 * wSum b S I ≤ S.length * I.length := by
    unfold wSum
    rw [← sum_map_two_mul]
    exact sum_map_le_mul _ _ I hup
  have h2 : (I.length + 1) * S.length ≤ 2 * wSum b S I :=
    le_wSum_members b S I _ h
  have hlen : 1 ≤ S.length := List.length_pos.2 hS
  have hx : (I.length + 1) * S.length
      = I.length * S.length + S.length := by ring
  have hy : S.length * I.length = I.length * S.length := Nat.mul_comm _ _
  have hz : I.length * S.length + S.length ≤ I.length * S.length + 0 := by
    rw [Nat.add_zero]
    calc I.length * S.length + S.length = (I.length + 1) * S.length := hx.symm
      _ ≤ 2 * wSum b S I := h2
      _ ≤ S.length * I.length := h1
      _ = I.length * S.length := hy
  have := Nat.le_of_add_le_add_left hz
  omega

end Feeder

namespace Feeder

/-- No-collapse, partition form: when the two current centroids are the
majority votes of two lists that together partition the batch, one
refinement round cannot make the two updated centroids equal. -/
theorem no_collapse_parts (H A B : List ℕ) (a b : ℕ)
    (ha : a < 2 ^ 64) (hb : b < 2 ^ 64) (hab : a ≠ b)
    (hperm : H.Perm (A ++ B))
    (hA : a = bitwise_majority A) (hB : b = bitwise_majority B)
    (hcol : nextC0 H a b = nextC1 H a b) : False := by
  set m := nextC0 H a b with hmdef
  set Df := diffBits a b with hDfdef
  set w : ℕ → Bool := fun v => decide (hamming v a ≤ hamming v b) with hwdef
  set uu : ℕ → Bool := fun i => m.testBit i == b.testBit i with huudef
  set Mb := Df.filter uu with hMbdef
  set Ma := Df.filter (fun i => !uu i) with hMadef
  set A0 := A.filter w with hA0def
  set A1 := A.filter (fun v => !w v) with hA1def
  set B0 := B.filter w with hB0def
  set B1 := B.filter (fun v => !w v) with hB1def
  have hd1 : 1 ≤ Df.length := List.length_pos.2 (diffBits_ne_nil a b ha hb hab)
  have hDmem : ∀ i ∈ Df, i < 64 ∧ a.testBit i ≠ b.testBit i := fun i hi =>
    (mem_diffBits a b i).1 hi
  have hMbbit : ∀ i ∈ Mb,
      (cluster0 H a b).length + (if b.testBit i then 0 else 1)
        ≤ 2 * agrB b (cluster0 H a b) i := by
    intro i hi
    rw [hMbdef] at hi
    have hiD : i ∈ Df := List.mem_of_mem_filter hi
    have hib : m.testBit i = b.testBit i := by
      have h2 := List.of_mem_filter hi
      rw [huudef] at h2
      exact eq_of_beq h2
    rcases hDmem i hiD with ⟨hi64, hne⟩
    by_cases hc : (cluster0 H a b).isEmpty
    · rw [nextC0, if_pos hc] at hmdef
      rw [hmdef] at hib
      exact absurd hib hne
    · rw [nextC0, if_neg hc] at hmdef
      rw [hmdef] at hib
      exact agr_lower_of_maj_eq b _ i hi64 hib
  have hMabit : ∀ i ∈ Ma,
      2 * agrB b (cluster1 H a b) i + (if b.testBit i then 1 else 0)
        ≤ (cluster1 H a b).length := by
    intro i hi
    rw [hMadef] at hi
    have hiD : i ∈ Df := List.mem_of_mem_filter hi
    have h2 := List.of_mem_filter hi
    have h3 : uu i = false := by simpa using h2
    rw [huudef] at h3
    have hibne : m.testBit i ≠ b.testBit i := ne_of_beq_false h3
    rcases hDmem i hiD with ⟨hi64, hne⟩
    by_cases hc : (cluster1 H a b).isEmpty
    · rw [nextC1, if_pos hc] at hcol
      rw [hcol] at hibne
      exact absurd rfl hibne
    · rw [nextC1, if_neg hc] at hcol
      rw [hcol] at hibne
      exact agr_upper_of_maj_ne b _ i hi64 hibne
  have hAbit : ∀ i ∈ Mb,
      2 * agrB b A i + (if b.testBit i then 1 else 0) ≤ A.length := by
    intro i hi
    rw [hMbdef] at hi
    have hiD : i ∈ Df := List.mem_of_mem_filter hi
    rcases hDmem i hiD with ⟨hi64, hne⟩
    apply agr_upper_of_maj_ne b A i hi64
    rw [← hA]
    exact hne
  have hBbit : ∀ i ∈ Ma,
      B.length + (if b.testBit i then 0 else 1) ≤ 2 * agrB b B i := by
    intro i hi
    rw [hMadef] at hi
    have hiD : i ∈ Df := List.mem_of_mem_filter hi
    rcases hDmem i hiD with ⟨hi64, hne⟩
    apply agr_lower_of_maj_eq b B i hi64
    rw [← hB]
  have hc1 := wSum_lower b (cluster0 H a b) Mb (cluster0 H a b).length hMbbit
  have hc4 := wSum_upper b (cluster1 H a b) Ma (cluster1 H a b).length hMabit
  have hc5 := wSum_upper b A Mb A.length hAbit
  have hc8 := wSum_lower b B Ma B.length hBbit
  have hG2 : ∀ v ∈ B0, 2 * tB b Df v ≤ Df.length := by
    intro v hv
    rw [hB0def] at hv
    have hwv := List.of_mem_filter hv
    rw [hwdef] at hwv
    have hle : hamming v a ≤ hamming v b := of_decide_eq_true hwv
    exact (hamming_le_iff_tB a b v).1 hle
  have hg2 := wSum_members_le b B0 Df Df.length hG2
  have hG3 : ∀ v ∈ A1, Df.length + 1 ≤ 2 * tB b Df v := by
    intro v hv
    rw [hA1def] at hv
    have hwv := List.of_mem_filter hv
    have hwf : w v = false := by simpa using hwv
    rw [hwdef] at hwf
    have hnle : ¬ (hamming v a ≤ hamming v b) := of_decide_eq_false hwf
    have h2 : ¬ (2 * tB b Df v ≤ Df.length) := fun hcc =>
      hnle ((hamming_le_iff_tB a b v).2 hcc)
    omega
  have hg3 := le_wSum_members b A1 Df (Df.length + 1) hG3
  have hperm0 : (cluster0 H a b).Perm (A0 ++ B0) := by
    rw [hA0def, hB0def, ← List.filter_append]
    exact hperm.filter w
  have hperm1 : (cluster1 H a b).Perm (A1 ++ B1) := by
    rw [hA1def, hB1def, ← List.filter_append, cluster1_eq_filter_not]
    exact hperm.filter _
  have hw0 : wSum b (cluster0 H a b) Mb = wSum b A0 Mb + wSum b B0 Mb := by
    rw [wSum_perm_members b hperm0, wSum_append_members]
  have hw1 : wSum b (cluster1 H a b) Ma = wSum b A1 Ma + wSum b B1 Ma := by
    rw [wSum_perm_members b hperm1, wSum_append_members]
  have hlen0 : (cluster0 H a b).length = A0.length + B0.length := by
    rw [hperm0.length_eq, List.length_append]
  have hlen1 : (cluster1 H a b).length = A1.length + B1.length := by
    rw [hperm1.length_eq, List.length_append]
  have hwA : wSum b A Mb = wSum b A0 Mb + wSum b A1 Mb := by
    rw [hA0def, hA1def]
    exact wSum_filter_split b A Mb w
  have hwB : wSum b B Ma = wSum b B0 Ma + wSum b B1 Ma := by
    rw [hB0def, hB1def]
    exact wSum_filter_split b B Ma w
  have hlenA : A.length = A0.length + A1.length := by
    rw [hA0def, hA1def]
    exact length_filter_split w A
  have hlenB : B.length = B0.length + B1.length := by
    rw [hB0def, hB1def]
    exact length_filter_split w B
  have hDperm : Df.Perm (Mb ++ Ma) := by
    rw [hMbdef, hMadef]
    exact (List.filter_append_perm uu Df).symm
  have hwB0D : wSum b B0 Df = wSum b B0 Mb + wSum b B0 Ma := by
    rw [wSum_perm_bits b B0 hDperm, wSum_append_bits]
  have hwA1D : wSum b A1 Df = wSum b A1 Mb + wSum b A1 Ma := by
    rw [wSum_perm_bits b A1 hDperm, wSum_append_bits]
  have hdlen : Df.length = Mb.length + Ma.length := by
    rw [hDperm.length_eq, List.length_append]
  have hs12 : Mb.countP (fun i => b.testBit i) + Mb.countP (fun i => !b.testBit i)
      = Mb.length := by
    rw [Nat.add_comm]
    exact countP_not_add (fun i => b.testBit i) Mb
  have hs34 : Ma.countP (fun i => b.testBit i) + Ma.countP (fun i => !b.testBit i)
      = Ma.length := by
    rw [Nat.add_comm]
    exact countP_not_add (fun i => b.testBit i) Ma
  rw [hlen0, hw0, Nat.add_mul] at hc1
  rw [hlen1, hw1, Nat.add_mul] at hc4
  rw [hwA, hlenA, Nat.add_mul] at hc5
  rw [hwB, hlenB, Nat.add_mul] at hc8
  rw [hwB0D] at hg2
  rw [hwA1D, Nat.add_mul, Nat.one_mul] at hg3
  have er : B0.length * Mb.length + B0.length * Ma.length
      = Df.length * B0.length := by
    rw [← Nat.mul_add, ← hdlen]
    exact Nat.mul_comm _ _
  have eq2 : A1.length * Mb.length + A1.length * Ma.length
      = Df.length * A1.length := by
    rw [← Nat.mul_add, ← hdlen]
    exact Nat.mul_comm _ _
  exact chain_arith hc1 hc8 hg3 hc5 hc4 hg2 hs12 hs34 hdlen.symm er eq2 hd1

end Feeder

namespace Feeder

/-- No-collapse, left-majority form: when the first centroid is the
majority of the whole batch, one round cannot equalise the updated
centroids. -/
theorem no_collapse_majH (H : List ℕ) (a b : ℕ)
    (ha : a < 2 ^ 64) (hb : b < 2 ^ 64) (hab : a ≠ b)
    (hA : a = bitwise_majority H)
    (hcol : nextC0 H a b = nextC1 H a b) : False := by
  by_cases h1 : (cluster1 H a b).isEmpty
  · by_cases h0 : (cluster0 H a b).isEmpty
    · apply hab
      rw [nextC0, if_pos h0, nextC1, if_pos h1] at hcol
      exact hcol
    · have hcl0 : cluster0 H a b = H :=
        cluster0_all H a b fun v hv =>
          cluster1_empty_all H a b (List.isEmpty_iff.1 h1) v hv
      apply hab
      rw [nextC0, if_neg h0, nextC1, if_pos h1, hcl0, ← hA] at hcol
      exact hcol
  · have hcl1ne : cluster1 H a b ≠ [] := fun hc => h1 (by rw [hc]; rfl)
    have hstrict : ∀ v ∈ cluster1 H a b,
        (diffBits a b).length + 1 ≤ 2 * tB b (diffBits a b) v := by
      intro v hv
      unfold cluster1 at hv
      have h2f := List.of_mem_filter hv
      have hnw : ¬ (hamming v a ≤ hamming v b) := of_decide_eq_true h2f
      have h2 : ¬ (2 * tB b (diffBits a b) v ≤ (diffBits a b).length) :=
        fun hc => hnw ((hamming_le_iff_tB a b v).2 hc)
      omega
    by_cases h0 : (cluster0 H a b).isEmpty
    · have hcl1 : cluster1 H a b = H :=
        cluster1_all H a b fun v hv =>
          cluster0_empty_all H a b (List.isEmpty_iff.1 h0) v hv
      have hHne : H ≠ [] := by
        rw [← hcl1]
        exact hcl1ne
      have hstrictH : ∀ v ∈ H,
          (diffBits a b).length + 1 ≤ 2 * tB b (diffBits a b) v := by
        intro v hv
        exact hstrict v (by rw [hcl1]; exact hv)
      obtain ⟨i, hiD, hstr⟩ :=
        exists_strict_bit b (diffBits a b) H hHne hstrictH
      rcases (mem_diffBits a b i).1 hiD with ⟨hi64, hne⟩
      have hbit := maj_bit_of_strict_agr b H i hi64 hstr
      apply hne
      rw [hA]
      exact hbit
    · have hm0 : nextC0 H a b = bitwise_majority (cluster0 H a b) := by
        rw [nextC0, if_neg h0]
      have hm1 : nextC1 H a b = bitwise_majority (cluster1 H a b) := by
        rw [nextC1, if_neg h1]
      have h12 : bitwise_majority (cluster0 H a b)
          = bitwise_majority (cluster1 H a b) := by
        rw [← hm0, ← hm1, hcol]
      have hunion := bitwise_majority_union H _ _ (cluster_perm H a b) h12
      obtain ⟨i, hiD, hstr⟩ :=
        exists_strict_bit b (diffBits a b) (cluster1 H a b) hcl1ne hstrict
      rcases (mem_diffBits a b i).1 hiD with ⟨hi64, hne⟩
      have hbit := maj_bit_of_strict_agr b (cluster1 H a b) i hi64 hstr
      apply hne
      rw [hA, hunion, h12]
      exact hbit

/-- No-collapse, right-majority form: when the second centroid is the
batch majority and the first is the majority of a sublist of the batch,
one round cannot equalise the updated centroids. -/
theorem no_collapse_majH_right (H A : List ℕ) (a b : ℕ)
    (ha : a < 2 ^ 64) (hb : b < 2 ^ 64) (hab : a ≠ b)
    (hmajH : b = bitwise_majority H)
    (hAH : ∀ v ∈ A, v ∈ H) (hA : a = bitwise_majority A)
    (hcol : nextC0 H a b = nextC1 H a b) : False := by
  by_cases h0 : (cluster0 H a b).isEmpty
  · by_cases h1 : (cluster1 H a b).isEmpty
    · apply hab
      rw [nextC0, if_pos h0, nextC1, if_pos h1] at hcol
      exact hcol
    · have hcl1 : cluster1 H a b = H :=
        cluster1_all H a b fun v hv =>
          cluster0_empty_all H a b (List.isEmpty_iff.1 h0) v hv
      apply hab
      rw [nextC0, if_pos h0, nextC1, if_neg h1, hcl1, ← hmajH] at hcol
      exact hcol
  · have hm0 : nextC0 H a b = bitwise_majority (cluster0 H a b) := by
      rw [nextC0, if_neg h0]
    have hmb : bitwise_majority (cluster0 H a b) = b := by
      by_cases h1 : (cluster1 H a b).isEmpty
      · rw [← hm0, hcol, nextC1, if_pos h1]
      · have hm1 : nextC1 H a b = bitwise_majority (cluster1 H a b) := by
          rw [nextC1, if_neg h1]
        have h12 : bitwise_majority (cluster0 H a b)
            = bitwise_majority (cluster1 H a b) := by
          rw [← hm0, ← hm1, hcol]
        have hunion := bitwise_majority_union H _ _ (cluster_perm H a b) h12
        rw [← hunion, ← hmajH]
    have hd1 : 1 ≤ (diffBits a b).length :=
      List.length_pos.2 (diffBits_ne_nil a b ha hb hab)
    have hlean : ∀ i ∈ diffBits a b,
        (cluster0 H a b).length + (if b.testBit i then 0 else 1)
          ≤ 2 * agrB b (cluster0 H a b) i := by
      intro i hi
      rcases (mem_diffBits a b i).1 hi with ⟨hi64, hne⟩
      apply agr_lower_of_maj_eq b _ i hi64
      rw [hmb]
    have hlow := wSum_lower b (cluster0 H a b) (diffBits a b)
      (cluster0 H a b).length hlean
    have hweak : ∀ v ∈ cluster0 H a b,
        2 * tB b (diffBits a b) v ≤ (diffBits a b).length := by
      intro v hv
      unfold cluster0 at hv
      have h2f := List.of_mem_filter hv
      exact (hamming_le_iff_tB a b v).1 (of_decide_eq_true h2f)
    have hup := wSum_members_le b (cluster0 H a b) (diffBits a b)
      (diffBits a b).length hweak
    have hz : (cluster0 H a b).length * (diffBits a b).length
          + (diffBits a b).countP (fun i => !b.testBit i)
        ≤ (cluster0 H a b).length * (diffBits a b).length + 0 := by
      rw [Nat.add_zero]
      calc (cluster0 H a b).length * (diffBits a b).length
            + (diffBits a b).countP (fun i => !b.testBit i)
          ≤ 2 * wSum b (cluster0 H a b) (diffBits a b) := hlow
        _ ≤ (diffBits a b).length * (cluster0 H a b).length := hup
        _ = (cluster0 H a b).length * (diffBits a b).length := Nat.mul_comm _ _
    have hD0 : (diffBits a b).countP (fun i => !b.testBit i) = 0 :=
      Nat.le_zero.1 (Nat.le_of_add_le_add_left hz)
    have hallb : ∀ i ∈ diffBits a b, b.testBit i = true := by
      intro i hi
      have h2 := List.countP_eq_zero.1 hD0 i hi
      simpa using h2
    have hWeq : 2 * wSum b (cluster0 H a b) (diffBits a b)
        = (diffBits a b).length * (cluster0 H a b).length := by
      apply le_antisymm hup
      calc (diffBits a b).length * (cluster0 H a b).length
          = (cluster0 H a b).length * (diffBits a b).length :=
            Nat.mul_comm _ _
        _ ≤ (cluster0 H a b).length * (diffBits a b).length
            + (diffBits a b).countP (fun i => !b.testBit i) :=
            Nat.le_add_right _ _
        _ ≤ 2 * wSum b (cluster0 H a b) (diffBits a b) := hlow
    have hsum : ((cluster0 H a b).map
          (fun v => 2 * tB b (diffBits a b) v)).sum
        = (diffBits a b).length * (cluster0 H a b).length := by
      rw [sum_map_two_mul, ← wSum_eq_sum_tB, hWeq]
    have hmem_eq := eq_of_sum_map_eq (fun v => 2 * tB b (diffBits a b) v)
      (diffBits a b).length (cluster0 H a b) hweak hsum
    have hAbit : ∀ i ∈ diffBits a b,
        2 * agrB b A i + (if b.testBit i then 1 else 0) ≤ A.length := by
      intro i hi
      rcases (mem_diffBits a b i).1 hi with ⟨hi64, hne⟩
      apply agr_upper_of_maj_ne b A i hi64
      rw [← hA]
      exact hne
    have hAup := wSum_upper b A (diffBits a b) A.length hAbit
    have hcd : (diffBits a b).countP (fun i => b.testBit i)
        = (diffBits a b).length := List.countP_eq_length.2 hallb
    have hAlow : (diffBits a b).length * A.length
        ≤ 2 * wSum b A (diffBits a b) := by
      apply le_wSum_members
      intro v hv
      by_cases hw : hamming v a ≤ hamming v b
      · have hvcl : v ∈ cluster0 H a b := cluster0_sub H a b v (hAH v hv) hw
        have h3 : 2 * tB b (diffBits a b) v = (diffBits a b).length :=
          hmem_eq v hvcl
        omega
      · have h2 : ¬ (2 * tB b (diffBits a b) v ≤ (diffBits a b).length) :=
          fun hcc => hw ((hamming_le_iff_tB a b v).2 hcc)
        omega
    rw [hcd] at hAup
    have hfin : (diffBits a b).length * A.length + (diffBits a b).length
        ≤ (diffBits a b).length * A.length + 0 := by
      rw [Nat.add_zero]
      calc (diffBits a b).length * A.length + (diffBits a b).length
          ≤ 2 * wSum b A (diffBits a b) + (diffBits a b).length :=
            Nat.add_le_add_right hAlow _
        _ ≤ A.length * (diffBits a b).length := hAup
        _ = (diffBits a b).length * A.length := Nat.mul_comm _ _
    have hle0 := Nat.le_of_add_le_add_left hfin
    omega

end Feeder

namespace Feeder

/-- The invariant maintained by the refinement rounds: the two centroids
are distinct 64-bit words and (i) they are the majorities of a partition
of the batch, or (ii) the first is the batch majority, or (iii) the second
is the batch majority and the first is the majority of a sublist of the
batch. -/
def CentroidInv (H : List ℕ) (a b : ℕ) : Prop :=
  a ≠ b ∧ a < 2 ^ 64 ∧ b < 2 ^ 64 ∧
    ((∃ A B2 : List ℕ, H.Perm (A ++ B2) ∧ a = bitwise_majority A
        ∧ b = bitwise_majority B2)
      ∨ a = bitwise_majority H
      ∨ (b = bitwise_majority H
          ∧ ∃ A : List ℕ, (∀ v ∈ A, v ∈ H) ∧ a = bitwise_majority A))

/-- One refinement round preserves the centroid invariant; in particular
the updated centroids stay distinct. -/
theorem centroidInv_step (H : List ℕ) (a b : ℕ) (hinv : CentroidInv H a b) :
    CentroidInv H (nextC0 H a b) (nextC1 H a b) := by
  obtain ⟨hab, ha, hb, hforms⟩ := hinv
  have hne : nextC0 H a b ≠ nextC1 H a b := by
    intro hcol
    rcases hforms with ⟨A, B2, hperm, hA, hB⟩ | hA | ⟨hB, A, hAH, hA⟩
    · exact no_collapse_parts H A B2 a b ha hb hab hperm hA hB hcol
    · exact no_collapse_majH H a b ha hb hab hA hcol
    · exact no_collapse_majH_right H A a b ha hb hab hB hAH hA hcol
  refine ⟨hne, ?_, ?_, ?_⟩
  · rw [nextC0]
    by_cases h0 : (cluster0 H a b).isEmpty
    · rw [if_pos h0]
      exact ha
    · rw [if_neg h0]
      exact bitwise_majority_lt _
  · rw [nextC1]
    by_cases h1 : (cluster1 H a b).isEmpty
    · rw [if_pos h1]
      exact hb
    · rw [if_neg h1]
      exact bitwise_majority_lt _
  · by_cases h0 : (cluster0 H a b).isEmpty <;>
      by_cases h1 : (cluster1 H a b).isEmpty
    · rw [nextC0, if_pos h0, nextC1, if_pos h1]
      exact hforms
    · have hcl1 : cluster1 H a b = H :=
        cluster1_all H a b fun v hv =>
          cluster0_empty_all H a b (List.isEmpty_iff.1 h0) v hv
      rw [nextC0, if_pos h0, nextC1, if_neg h1, hcl1]
      right; right
      refine ⟨rfl, ?_⟩
      rcases hforms with ⟨A, B2, hperm, hA, _⟩ | hA | ⟨_, A, hAH, hA⟩
      · exact ⟨A, fun v hv => hperm.mem_iff.2 (List.mem_append_left B2 hv), hA⟩
      · exact ⟨H, fun v hv => hv, hA⟩
      · exact ⟨A, hAH, hA⟩
    · have hcl0 : cluster0 H a b = H :=
        cluster0_all H a b fun v hv =>
          cluster1_empty_all H a b (List.isEmpty_iff.1 h1) v hv
      rw [nextC0, if_neg h0, nextC1, if_pos h1, hcl0]
      right; left
      rfl
    · rw [nextC0, if_neg h0, nextC1, if_neg h1]
      left
      exact ⟨cluster0 H a b, cluster1 H a b, cluster_perm H a b, rfl, rfl⟩

/-- The invariant is preserved by any number of `k2_round` iterations. -/
theorem centroidInv_iterate (H : List ℕ) (n : ℕ) (s : ℕ × ℕ × List ℕ)
    (hinv : CentroidInv H s.1 s.2.1) :
    CentroidInv H (((k2_round H)^[n]) s).1 (((k2_round H)^[n]) s).2.1 := by
  induction n generalizing s with
  | zero => simpa
  | succ n ih =>
    rw [Function.iterate_succ_apply]
    apply ih
    rw [k2_round_c0, k2_round_c1]
    exact centroidInv_step H s.1 s.2.1 hinv

end Feeder

namespace Feeder

/-- Everything the `max_by_key` fold of `farthest_from` guarantees about a
`some` result: where it can come from and its maximality. -/
theorem farthest_foldl_spec (center : ℕ) (vals : List ℕ) :
    ∀ acc v, vals.foldl
      (fun acc v =>
        match acc with
        | none => some v
        | some b =>
          if hamming center b ≤ hamming center v then some v else some b)
      acc = some v →
    (acc = some v ∨ v ∈ vals)
    ∧ (∀ w ∈ vals, hamming center w ≤ hamming center v)
    ∧ (∀ b0, acc = some b0 → hamming center b0 ≤ hamming center v) := by
  induction vals with
  | nil =>
    intro acc v h
    refine ⟨Or.inl h, ?_, ?_⟩
    · intro w hw
      exact absurd hw (List.not_mem_nil w)
    · intro b0 hb0
      rw [hb0] at h
      injection h with h2
      rw [h2]
  | cons a t ih =>
    intro acc v h
    rw [List.foldl_cons] at h
    obtain ⟨hmem, hmax, haccstep⟩ := ih _ v h
    cases acc with
    | none =>
      have hav : hamming center a ≤ hamming center v := haccstep a rfl
      refine ⟨?_, ?_, ?_⟩
      · rcases hmem with hs | hm
        · injection hs with h2
          exact Or.inr (h2 ▸ List.mem_cons_self a t)
        · exact Or.inr (List.mem_cons_of_mem a hm)
      · intro w hw
        rcases List.mem_cons.1 hw with rfl | hwt
        · exact hav
        · exact hmax w hwt
      · intro b0 hb0
        exact absurd hb0 (by simp)
    | some b0 =>
      by_cases hle : hamming center b0 ≤ hamming center a
      · have hstep : (if hamming center b0 ≤ hamming center a
            then some a else some b0) = some a := if_pos hle
        have hav : hamming center a ≤ hamming center v :=
          haccstep a hstep
        refine ⟨?_, ?_, ?_⟩
        · rcases hmem with hs | hm
          · have hs2 : (some a : Option ℕ) = some v := Eq.trans hstep.symm hs
            injection hs2 with h2
            exact Or.inr (h2 ▸ List.mem_cons_self a t)
          · exact Or.inr (List.mem_cons_of_mem a hm)
        · intro w hw
          rcases List.mem_cons.1 hw with rfl | hwt
          · exact hav
          · exact hmax w hwt
        · intro b1 hb1
          injection hb1 with h2
          rw [← h2]
          exact le_trans hle hav
      · have hstep : (if hamming center b0 ≤ hamming center a
            then some a else some b0) = some b0 := if_neg hle
        have hbv : hamming center b0 ≤ hamming center v :=
          haccstep b0 hstep
        refine ⟨?_, ?_, ?_⟩
        · rcases hmem with hs | hm
          · exact Or.inl (Eq.trans hstep.symm hs)
          · exact Or.inr (List.mem_cons_of_mem a hm)
        · intro w hw
          rcases List.mem_cons.1 hw with rfl | hwt
          · exact le_trans (Nat.le_of_lt (Nat.lt_of_not_le hle)) hbv
          · exact hmax w hwt
        · intro b1 hb1
          injection hb1 with h2
          rw [← h2]
          exact hbv

/-- A `some` result of `farthest_from` is a member at maximal Hamming
distance from the center. -/
theorem farthest_from_spec (center : ℕ) (vals : List ℕ) (v : ℕ)
    (h : farthest_from center vals = some v) :
    v ∈ vals ∧ ∀ w ∈ vals, hamming center w ≤ hamming center v := by
  have h2 := farthest_foldl_spec center vals none v h
  refine ⟨?_, h2.2.1⟩
  rcases h2.1 with hn | hm
  · exact absurd hn (by simp)
  · exact hm

theorem farthest_foldl_some (center : ℕ) (t : List ℕ) :
    ∀ b0, ∃ v, t.foldl
      (fun acc v =>
        match acc with
        | none => some v
        | some b =>
          if hamming center b ≤ hamming center v then some v else some b)
      (some b0) = some v := by
  induction t with
  | nil => exact fun b0 => ⟨b0, rfl⟩
  | cons a t ih =>
    intro b0
    rw [List.foldl_cons]
    by_cases hle : hamming center b0 ≤ hamming center a
    · have hstep : (if hamming center b0 ≤ hamming center a
          then some a else some b0) = some a := if_pos hle
      rw [show (match some b0 with
          | none => some a
          | some b =>
            if hamming center b ≤ hamming center a then some a else some b)
          = some a from hstep]
      exact ih a
    · have hstep : (if hamming center b0 ≤ hamming center a
          then some a else some b0) = some b0 := if_neg hle
      rw [show (match some b0 with
          | none => some a
          | some b =>
            if hamming center b ≤ hamming center a then some a else some b)
          = some b0 from hstep]
      exact ih b0

/-- `max_by_key` over a nonempty list yields a value. -/
theorem farthest_from_some (center : ℕ) (vals : List ℕ) (hne : vals ≠ []) :
    ∃ v, farthest_from center vals = some v := by
  cases vals with
  | nil => exact absurd rfl hne
  | cons a t =>
    unfold farthest_from
    rw [List.foldl_cons]
    exact farthest_foldl_some center t a

end Feeder

namespace Feeder

/-- A successfully computed perceptual hash is a 64-bit word. -/
theorem dhash_path_lt (resize9x8 : GrayImage → SmallImage) (env : DecodeEnv)
    (p : String) (h : ℕ) (hh : dhash_path resize9x8 env p = .ok h) :
    h < 2 ^ 64 := by
  unfold dhash_path at hh
  cases henv : env p with
  | none =>
    rw [henv] at hh
    exact absurd hh (by simp)
  | some g =>
    rw [henv] at hh
    have h2 : dhash_gray resize9x8 g = h := by injection hh
    rw [← h2]
    unfold dhash_gray
    exact dhash_bits_lt _

/-- Every hash in a successful batch is a 64-bit word. -/
theorem mapM_dhash_lt (resize9x8 : GrayImage → SmallImage) (env : DecodeEnv) :
    ∀ (paths : List String) (hashes : List ℕ),
      paths.mapM (dhash_path resize9x8 env) = .ok hashes →
      ∀ h ∈ hashes, h < 2 ^ 64 := by
  intro paths
  induction paths with
  | nil =>
    intro hashes hh h hmem
    rw [List.mapM_nil] at hh
    have h2 : ([] : List ℕ) = hashes := by injection hh
    rw [← h2] at hmem
    exact absurd hmem (List.not_mem_nil h)
  | cons p t ih =>
    intro hashes hh h hmem
    rw [List.mapM_cons] at hh
    cases hp : dhash_path resize9x8 env p with
    | error e =>
      rw [hp] at hh
      exact absurd hh (by simp [Bind.bind, Except.bind])
    | ok h0 =>
      rw [hp] at hh
      simp only [Bind.bind, Except.bind] at hh
      cases ht : t.mapM (dhash_path resize9x8 env) with
      | error e =>
        rw [ht] at hh
        exact absurd hh (by simp)
      | ok hs =>
        rw [ht] at hh
        simp only [pure, Except.pure, Except.ok.injEq] at hh
        rw [← hh] at hmem
        rcases List.mem_cons.1 hmem with rfl | hmt
        · exact dhash_path_lt resize9x8 env p h hp
        · exact ih hs ht h hmt

/-- C2: for every batch of fingerprints containing at least two distinct
values, the two centroids held by the cluster-model detector after
`prepare` completes (seeding plus the five refinement rounds) are never
bit-identical. -/
theorem prepare_centroids_distinct (sq : ℚ → ℚ)
    (resize9x8 : GrayImage → SmallImage) (env : DecodeEnv)
    (d st : BgDiffDetector) (paths : List String) (hashes : List ℕ)
    (x y : ℕ)
    (hh : paths.mapM (dhash_path resize9x8 env) = .ok hashes)
    (hx : x ∈ hashes) (hy : y ∈ hashes) (hxy : x ≠ y)
    (hok : BgDiffDetector.prepare sq resize9x8 env d paths = .ok st) :
    st.c0 ≠ st.c1 := by
  have hbound := mapM_dhash_lt resize9x8 env paths hashes hh
  have hpne : ¬ paths.isEmpty := by
    intro hp
    have hpn : paths = [] := List.isEmpty_iff.1 hp
    subst hpn
    rw [List.mapM_nil] at hh
    have h2 : ([] : List ℕ) = hashes := by injection hh
    rw [← h2] at hx
    exact absurd hx (List.not_mem_nil x)
  unfold BgDiffDetector.prepare at hok
  rw [if_neg hpne, hh] at hok
  simp only [Except.ok.injEq] at hok
  subst hok
  have hne : hashes ≠ [] := List.ne_nil_of_mem hx
  obtain ⟨v, hv⟩ := farthest_from_some (bitwise_majority hashes) hashes hne
  obtain ⟨hvmem, hvmax⟩ :=
    farthest_from_spec (bitwise_majority hashes) hashes v hv
  have hc0lt : bitwise_majority hashes < 2 ^ 64 := bitwise_majority_lt _
  have hzex : ∃ z ∈ hashes, z ≠ bitwise_majority hashes := by
    by_cases hxc : x = bitwise_majority hashes
    · refine ⟨y, hy, ?_⟩
      rw [← hxc]
      exact fun h2 => hxy h2.symm
    · exact ⟨x, hx, hxc⟩
  obtain ⟨z, hzmem, hzne⟩ := hzex
  have h1z : 1 ≤ hamming (bitwise_majority hashes) z :=
    hamming_pos _ z hc0lt (hbound z hzmem) (fun h2 => hzne h2.symm)
  have hvne : bitwise_majority hashes ≠ v := by
    intro he
    have h2 := hvmax z hzmem
    rw [← he, hamming_self] at h2
    omega
  have hinv : CentroidInv hashes (bitwise_majority hashes) v :=
    ⟨hvne, hc0lt, hbound v hvmem, Or.inr (Or.inl rfl)⟩
  have hfin := centroidInv_iterate hashes 5
    (bitwise_majority hashes, v, List.replicate hashes.length 0) hinv
  have hgd : (farthest_from (bitwise_majority hashes) hashes).getD
      (bitwise_majority hashes ^^^ (2 ^ 64 - 1)) = v := by
    rw [hv]
    rfl
  show (k2_hamming_centroids hashes (bitwise_majority hashes)
      ((farthest_from (bitwise_majority hashes) hashes).getD
        (bitwise_majority hashes ^^^ (2 ^ 64 - 1))) 5).1
    ≠ (k2_hamming_centroids hashes (bitwise_majority hashes)
      ((farthest_from (bitwise_majority hashes) hashes).getD
        (bitwise_majority hashes ^^^ (2 ^ 64 - 1))) 5).2.1
  rw [hgd, k2_hamming_centroids]
  exact hfin.1

end Feeder

namespace Feeder

/-- A decode environment with two distinct images: path `"a"` decodes to a
constant raster, any other path to a horizontal gradient. -/
def cexEnvW : DecodeEnv := fun p =>
  if p = "a" then some (fun _ _ => 0) else some (fun px _ => 10 - px)

set_option maxRecDepth 8000 in
/-- Witness for `prepare_centroids_distinct`: a two-image batch hashing to
`0` and the all-ones word; `prepare` succeeds and the stored centroids
differ. -/
theorem prepare_centroids_distinct_witness :
    ∃ st : BgDiffDetector,
      BgDiffDetector.prepare (fun q => q) (fun g => g) cexEnvW
        BgDiffDetector.default ["a", "b"] = .ok st
      ∧ st.c0 ≠ st.c1 := by
  have hh : (["a", "b"] : List String).mapM (dhash_path (fun g => g) cexEnvW)
      = .ok [0, 2 ^ 64 - 1] := by rfl
  rcases hok : BgDiffDetector.prepare (fun q => q) (fun g => g) cexEnvW
      BgDiffDetector.default ["a", "b"] with e | st
  · exfalso
    unfold BgDiffDetector.prepare at hok
    rw [if_neg (by decide), hh] at hok
    exact Except.noConfusion hok
  · exact ⟨st, rfl,
      prepare_centroids_distinct (fun q => q) (fun g => g) cexEnvW
        BgDiffDetector.default st ["a", "b"] [0, 2 ^ 64 - 1] 0 (2 ^ 64 - 1)
        hh (List.mem_cons_self 0 [2 ^ 64 - 1])
        (List.mem_cons_of_mem 0 (List.mem_cons_self (2 ^ 64 - 1) []))
        (by norm_num) hok⟩

end Feeder
